import Mathlib

/-
Verification development for the plugin lifecycle core of the modmail-es
repository (src/cogs/plugins.py).

The Python code is shallowly embedded:
  * Plugin.from_string's two regular expressions
      non-strict:  (.+?)/(.+?)/(.+?)(?:@(.+?))?  anchored at both ends
      strict:      (.+?)/(.+?)/(.+?)@(.+?)       anchored at both ends
    are embedded as an explicit backtracking matcher specialized to these
    patterns.  A lazy group consumes one character at a time (never a
    newline, mirroring the dot metacharacter) and hands control to the
    continuation for the remainder of the pattern; on failure it extends.
    The end anchor accepts the end of input or a single trailing newline,
    mirroring the dollar anchor of the re module.
  * state-bearing operations (download_plugin, load_plugin, plugins_add,
    plugins_remove, update_plugin, plugins_update, initial_load_plugins)
    become explicit state-passing functions over a BotState record, with
    Except modelling Python exception propagation and Bool oracles
    standing for the success or failure of external effects (network
    fetch, pip install plus extension activation).
-/

/-- One lazy group of the pattern: consume at least one non-newline
character, preferring the shortest match, then run the continuation k on
the rest of the input; on failure of k, extend the group by one more
character.  The first argument of k is the text captured by the group. -/
def lazyPlusAux (k : List Char → List Char → Option α) :
    List Char → List Char → Option α
  | _, [] => none
  | acc, c :: rest =>
    if c = '\n' then none
    else
      match k (acc ++ [c]) rest with
      | some v => some v
      | none => lazyPlusAux k (acc ++ [c]) rest

/-- The dollar anchor of the re module: end of input, or a lone trailing
newline. -/
def endOk : List Char → Bool
  | [] => true
  | c :: r => decide (c = '\n') && r.isEmpty

/-- Captured groups of either pattern: user, repo, name, optional branch. -/
def RawGroups : Type := List Char × List Char × List Char × Option (List Char)

instance : DecidableEq RawGroups :=
  inferInstanceAs (DecidableEq (List Char × List Char × List Char × Option (List Char)))

/-- Continuation after the branch group: the end anchor. -/
def kBranch (g1 g2 g3 g4 r : List Char) : Option RawGroups :=
  if endOk r then some (g1, g2, g3, some g4) else none

/-- Strict pattern, continuation after the name group: a literal at sign,
then the branch group. -/
def kNameS (g1 g2 g3 : List Char) (r : List Char) : Option RawGroups :=
  match r with
  | [] => none
  | c :: r' => if c = '@' then lazyPlusAux (kBranch g1 g2 g3) [] r' else none

/-- Strict pattern, continuation after the repo group: a literal slash,
then the name group. -/
def kRepoS (g1 g2 : List Char) (r : List Char) : Option RawGroups :=
  match r with
  | [] => none
  | c :: r' => if c = '/' then lazyPlusAux (kNameS g1 g2) [] r' else none

/-- Strict pattern, continuation after the user group: a literal slash,
then the repo group. -/
def kUserS (g1 : List Char) (r : List Char) : Option RawGroups :=
  match r with
  | [] => none
  | c :: r' => if c = '/' then lazyPlusAux (kRepoS g1) [] r' else none

/-- The strict regular expression of Plugin.from_string. -/
def matchStrict (s : List Char) : Option RawGroups :=
  lazyPlusAux kUserS [] s

/-- Non-strict pattern, continuation after the name group: a greedy
optional group holding a literal at sign and the branch group, then the
end anchor.  The optional group is tried first; if it fails, the anchor
is tried directly. -/
def kNameN (g1 g2 g3 : List Char) (r : List Char) : Option RawGroups :=
  match r with
  | [] => some (g1, g2, g3, none)
  | c :: r' =>
    if c = '@' then
      match lazyPlusAux (kBranch g1 g2 g3) [] r' with
      | some v => some v
      | none => if endOk (c :: r') then some (g1, g2, g3, none) else none
    else if endOk (c :: r') then some (g1, g2, g3, none) else none

/-- Non-strict pattern, continuation after the repo group. -/
def kRepoN (g1 g2 : List Char) (r : List Char) : Option RawGroups :=
  match r with
  | [] => none
  | c :: r' => if c = '/' then lazyPlusAux (kNameN g1 g2) [] r' else none

/-- Non-strict pattern, continuation after the user group. -/
def kUserN (g1 : List Char) (r : List Char) : Option RawGroups :=
  match r with
  | [] => none
  | c :: r' => if c = '/' then lazyPlusAux (kRepoN g1) [] r' else none

/-- The non-strict regular expression of Plugin.from_string. -/
def matchNonStrict (s : List Char) : Option RawGroups :=
  lazyPlusAux kUserN [] s

/-- The Plugin identity: user, repo, name and branch.  The constructor of
the Python class defaults a missing branch to the string master; here the
branch field is always filled in (callers apply the default). -/
structure Plugin where
  user : List Char
  repo : List Char
  name : List Char
  branch : List Char
deriving DecidableEq, Repr

/-- The default branch. -/
def masterL : List Char := "master".toList

/-- Plugin.from_string: run the strict or non-strict regular expression;
on a match build a Plugin, defaulting a missing branch to master; on no
match the Python code raises InvalidPluginError, embedded as none. -/
def Plugin.from_string (s : List Char) (strict : Bool) : Option Plugin :=
  match (if strict then matchStrict s else matchNonStrict s) with
  | some (g1, g2, g3, g4) => some ⟨g1, g2, g3, g4.getD masterL⟩
  | none => none

/-- Plugin str dunder: user/repo/name atsign branch. -/
def Plugin.serial (p : Plugin) : List Char :=
  p.user ++ '/' :: p.repo ++ '/' :: p.name ++ '@' :: p.branch

/-- Plugin.path: the install directory, relative to the bot root, as its
list of path segments plugins, user, repo, name dash branch. -/
def Plugin.absKey (p : Plugin) : List (List Char) :=
  ["plugins".toList, p.user, p.repo, p.name ++ '-' :: p.branch]

/-- Plugin.cache_path: the cache artifact file name user dash repo dash
branch dot zip, determined only by (user, repo, branch). -/
def Plugin.cacheKey (p : Plugin) : List Char :=
  p.user ++ '-' :: p.repo ++ '-' :: p.branch ++ ".zip".toList

/-- Plugin.ext_string: plugins dot user dot repo dot name dash branch dot
name, the extension activation identifier. -/
def Plugin.ext_string (p : Plugin) : List Char :=
  "plugins.".toList ++ p.user ++ '.' :: p.repo ++ '.' :: p.name
    ++ '-' :: p.branch ++ '.' :: p.name

/-- One archive entry as seen by the extraction loop of download_plugin:
the path of the entry, split into its segments (PurePath parts), and the
directory flag. -/
structure ZipInfo where
  parts : List (List Char)
  isDir : Bool
deriving DecidableEq, Repr

/-- The extraction loop of download_plugin: an entry is selected when its
path has at least three segments and its second segment equals the plugin
name; a selected entry is written below the install directory at the path
suffix after the first two segments. -/
def installWrites (p : Plugin) (entries : List ZipInfo) :
    List (List (List Char) × Bool) :=
  (entries.filter fun e =>
      decide (3 ≤ e.parts.length ∧ e.parts[1]? = some p.name)).map
    fun e => (e.parts.drop 2, e.isDir)

/-- The mutable state the plugin cog touches: the persisted list under the
plugins key of the configuration store, the install-directory tree, the
artifact cache, the loaded_plugins set, the set of extension identifiers
currently active in the extension host, the names of registered cogs, the
enable_plugins flag and the one-shot readiness event. -/
structure BotState where
  pluginsList : List (List Char)
  dirs : List (List (List Char))
  caches : List (List Char)
  loaded : List Plugin
  extensions : List (List Char)
  cogNames : List (List Char)
  enablePlugins : Bool
  ready : Bool
deriving DecidableEq, Repr

/-- Creating a directory or file that may already exist (mkdir with
exist_ok, cache overwrite): sets are kept as duplicate-free lists. -/
def insertIfAbsent [DecidableEq α] (a : α) (l : List α) : List α :=
  if a ∈ l then l else a :: l

/-- download_plugin: return immediately when the install directory exists
and force is false; otherwise create the install directory, then use the
cache artifact when present and force is false, else fetch from the
network (which may fail, raising after the directory was created) and
write the cache artifact.  The number of network downloads performed is
returned alongside the state; an exception carries the mutated state. -/
def downloadStep (st : BotState) (p : Plugin) (force fetchOk : Bool) :
    Except BotState (BotState × Nat) :=
  if p.absKey ∈ st.dirs ∧ force = false then .ok (st, 0)
  else
    let st1 := { st with dirs := insertIfAbsent p.absKey st.dirs }
    if p.cacheKey ∈ st1.caches ∧ force = false then .ok (st1, 0)
    else if fetchOk then
      .ok ({ st1 with caches := insertIfAbsent p.cacheKey st1.caches }, 1)
    else .error st1

/-- load_plugin: validation, dependency installation and extension
activation are condensed into one success oracle; on success
load_extension activates the extension identifier and the plugin joins
the loaded_plugins set, on failure (missing entry file, pip failure, or
any ExtensionError raised by load_extension) InvalidPluginError is
raised with neither the extension activated nor the set changed. -/
def loadStep (st : BotState) (p : Plugin) (loadOk : Bool) :
    Except BotState BotState :=
  if loadOk then
    .ok { st with
      loaded := insertIfAbsent p st.loaded,
      extensions := insertIfAbsent p.ext_string st.extensions }
  else .error st

/-- Outcome reported by the add command. -/
inductive AddResult where
  | stillLoading
  | alreadyInstalled
  | nameConflict
  | downloadFailed
  | loadFailed
  | installedLoaded
  | installedDisabled
deriving DecidableEq, Repr

/-- Outcome reported by the remove command. -/
inductive RemoveResult where
  | stillLoading
  | notInstalled
  | removed
deriving DecidableEq, Repr

/-- Outcome reported by one update invocation that did not raise. -/
inductive UpdateResult where
  | stillLoading
  | parseFail
  | notInstalled
  | updated
deriving DecidableEq, Repr

/-- plugins_add: the readiness gate (inside parse_user_input), the
duplicate check against the persisted list, the cog-name collision check,
the forced download (failure caught and reported), the append to the
persisted list followed by the configuration update, and, when plugins
are enabled, the load attempt (failure caught and reported). -/
def plugins_add (st : BotState) (p : Plugin) (fetchOk loadOk : Bool) :
    BotState × AddResult :=
  if st.ready = false then (st, .stillLoading)
  else if p.serial ∈ st.pluginsList then (st, .alreadyInstalled)
  else if p.name ∈ st.cogNames then (st, .nameConflict)
  else
    match downloadStep st p true fetchOk with
    | .error st1 => (st1, .downloadFailed)
    | .ok (st1, _) =>
      let st2 := { st1 with pluginsList := st1.pluginsList ++ [p.serial] }
      if st2.enablePlugins then
        match loadStep st2 p loadOk with
        | .error st3 => (st3, .loadFailed)
        | .ok st3 => (st3, .installedLoaded)
      else (st2, .installedDisabled)

/-- plugins_remove: the readiness gate, the membership check, then (when
plugins are enabled) unload_extension followed by loaded_plugins.remove
inside one handler catching ExtensionNotLoaded and KeyError: when the
extension identifier is not active, unload_extension raises and the
discard from loaded_plugins is skipped; when it is active it is
deactivated and the discard is attempted (a KeyError from an absent
member is swallowed).  Then the entry leaves the persisted list, the
configuration is updated, and the install directory tree is deleted. -/
def plugins_remove (st : BotState) (p : Plugin) : BotState × RemoveResult :=
  if st.ready = false then (st, .stillLoading)
  else if p.serial ∈ st.pluginsList then
    let st1 :=
      if st.enablePlugins then
        if p.ext_string ∈ st.extensions then
          { st with
            extensions := st.extensions.erase p.ext_string,
            loaded := st.loaded.erase p }
        else st
      else st
    let st2 := { st1 with pluginsList := st1.pluginsList.erase p.serial }
    ({ st2 with dirs := st2.dirs.erase p.absKey }, .removed)
  else (st, .notInstalled)

/-- Body of update_plugin after user input was parsed: the membership
check, then a forced download and, when plugins are enabled,
unload_extension inside a handler tolerating ExtensionError (the
extension identifier is deactivated when active; loaded_plugins is not
touched) followed by a load.  Neither the download nor the load is
wrapped in an exception handler, so their failures propagate to the
caller — a failed load leaves the extension deactivated but the plugin
still in loaded_plugins. -/
def update_body (st : BotState) (p : Plugin) (fetchOk loadOk : Bool) :
    Except BotState (BotState × UpdateResult) :=
  if p.serial ∈ st.pluginsList then
    match downloadStep st p true fetchOk with
    | .error st1 => .error st1
    | .ok (st1, _) =>
      if st1.enablePlugins then
        match loadStep
            { st1 with extensions := st1.extensions.erase p.ext_string }
            p loadOk with
        | .error st2 => .error st2
        | .ok st2 => .ok (st2, .updated)
      else .ok (st1, .updated)
  else .ok (st, .notInstalled)

/-- update_plugin on an already-parsed identity. -/
def update_plugin_p (st : BotState) (p : Plugin) (fetchOk loadOk : Bool) :
    Except BotState (BotState × UpdateResult) :=
  if st.ready = false then .ok (st, .stillLoading)
  else update_body st p fetchOk loadOk

/-- update_plugin on a reference string: the readiness gate and the
non-strict parse of parse_user_input, then the body. -/
def update_plugin_str (st : BotState) (s : List Char) (fetchOk loadOk : Bool) :
    Except BotState (BotState × UpdateResult) :=
  if st.ready = false then .ok (st, .stillLoading)
  else
    match Plugin.from_string s false with
    | none => .ok (st, .parseFail)
    | some p => update_body st p fetchOk loadOk

/-- The loop of plugins_update without an argument: invoke update_plugin
on each persisted entry in order; an exception raised by one invocation
propagates and ends the loop.  The first component lists the entries on
which update_plugin was actually invoked. -/
def run_update_list (st : BotState) (names : List (List Char))
    (orc : List Char → Bool × Bool) :
    List (List Char) × Except BotState BotState :=
  match names with
  | [] => ([], .ok st)
  | s :: rest =>
    match update_plugin_str st s (orc s).1 (orc s).2 with
    | .error e => ([s], .error e)
    | .ok (st', _) =>
      let r := run_update_list st' rest orc
      (s :: r.1, r.2)

/-- plugins_update with no argument: iterate over the persisted list. -/
def plugins_update_all (st : BotState) (orc : List Char → Bool × Bool) :
    List (List Char) × Except BotState BotState :=
  run_update_list st st.pluginsList orc

/-- Externally visible events of the bulk initial load: an in-memory
legacy rewrite of one persisted entry, the opening of the readiness gate,
and the persistence of the configuration. -/
inductive Event where
  | memRewrite (old new : List Char)
  | gateSet
  | persistEvt
deriving DecidableEq, Repr

/-- One fetch-and-load attempt of the bulk initial load, with both
failure modes caught by the surrounding exception handler. -/
def tryDownloadLoad (st : BotState) (p : Plugin) (fetchOk loadOk : Bool) :
    BotState :=
  match downloadStep st p false fetchOk with
  | .error st1 => st1
  | .ok (st1, _) =>
    match loadStep st1 p loadOk with
    | .error st2 => st2
    | .ok st2 => st2

/-- The loop of initial_load_plugins over a snapshot of the persisted
list: strict parse; on failure remove the entry, reparse non-strictly
and, on success, append the normalized serialization (the legacy
rewrite); then attempt download and load, logging and continuing on any
failure. -/
def initial_load_pass (st : BotState) (names : List (List Char))
    (orc : List Char → Bool × Bool) : BotState × List Event :=
  match names with
  | [] => (st, [])
  | s :: rest =>
    match Plugin.from_string s true with
    | some p =>
      initial_load_pass (tryDownloadLoad st p (orc s).1 (orc s).2) rest orc
    | none =>
      let st1 := { st with pluginsList := st.pluginsList.erase s }
      match Plugin.from_string s false with
      | none => initial_load_pass st1 rest orc
      | some p =>
        let st2 := { st1 with pluginsList := st1.pluginsList ++ [p.serial] }
        let r :=
          initial_load_pass (tryDownloadLoad st2 p (orc s).1 (orc s).2) rest orc
        (r.1, Event.memRewrite s p.serial :: r.2)

/-- initial_load_plugins: run the loop over the persisted list, then set
the one-shot readiness event, then await the configuration update — the
gate is opened before the persist is awaited. -/
def initial_load_run (st : BotState) (orc : List Char → Bool × Bool) :
    BotState × List Event :=
  let r := initial_load_pass st st.pluginsList orc
  ({ r.1 with ready := true }, r.2 ++ [Event.gateSet, Event.persistEvt])

/-- Event a occurs, event b occurs, and the first occurrence of a is
earlier than the first occurrence of b. -/
def precedes (a b : Event) (tr : List Event) : Prop :=
  a ∈ tr ∧ b ∈ tr ∧ tr.indexOf a < tr.indexOf b

instance (a b : Event) (tr : List Event) : Decidable (precedes a b tr) :=
  inferInstanceAs (Decidable (a ∈ tr ∧ b ∈ tr ∧ tr.indexOf a < tr.indexOf b))

/-- The operations of the lifecycle orchestrator, each carrying the
success oracles of its external effects. -/
inductive Op where
  | initialLoad (orc : List Char → Bool × Bool)
  | add (p : Plugin) (fetchOk loadOk : Bool)
  | remove (p : Plugin)
  | update (p : Plugin) (fetchOk loadOk : Bool)

/-- One orchestrator step.  The bulk initial load task is created at
startup only when enable_plugins is set; an exception escaping the update
command is swallowed by the command framework, leaving the mutated state
in place. -/
def opStep (st : BotState) : Op → BotState
  | .initialLoad orc => if st.enablePlugins then (initial_load_run st orc).1 else st
  | .add p f l => (plugins_add st p f l).1
  | .remove p => (plugins_remove st p).1
  | .update p f l =>
    match update_plugin_p st p f l with
    | .error st' => st'
    | .ok (st', _) => st'

/-- A reference segment in the shape the spec grammar describes: nonempty
and free of the two separator characters and of the newline. -/
def validSeg (l : List Char) : Prop :=
  l ≠ [] ∧ ∀ c ∈ l, c ≠ '/' ∧ c ≠ '@' ∧ c ≠ '\n'

/-- All four fields of an identity are well-shaped segments. -/
def fieldsClean (p : Plugin) : Prop :=
  validSeg p.user ∧ validSeg p.repo ∧ validSeg p.name ∧ validSeg p.branch

/-- Well-shaped fields plus a hyphen-free name (making install-directory
keys injective) and dot-free owner and repo (making extension
identifiers injective). -/
def fullClean (p : Plugin) : Prop :=
  fieldsClean p ∧ '-' ∉ p.name ∧ '.' ∉ p.user ∧ '.' ∉ p.repo

/-- A parse outcome is clean when a successful parse yields a fully
well-shaped identity. -/
def parsedClean : Option Plugin → Prop
  | none => True
  | some q => fullClean q

instance (l : List Char) : Decidable (validSeg l) :=
  inferInstanceAs (Decidable (l ≠ [] ∧ ∀ c ∈ l, c ≠ '/' ∧ c ≠ '@' ∧ c ≠ '\n'))

instance (p : Plugin) : Decidable (fieldsClean p) :=
  inferInstanceAs
    (Decidable (validSeg p.user ∧ validSeg p.repo ∧ validSeg p.name ∧ validSeg p.branch))

instance (p : Plugin) : Decidable (fullClean p) :=
  inferInstanceAs
    (Decidable (fieldsClean p ∧ '-' ∉ p.name ∧ '.' ∉ p.user ∧ '.' ∉ p.repo))

instance : (o : Option Plugin) → Decidable (parsedClean o)
  | none => .isTrue trivial
  | some q => inferInstanceAs (Decidable (fullClean q))

/-- A persisted entry is well-behaved: whichever of the two parses the
bulk load would apply to it yields a clean identity. -/
def listOk (s : List Char) : Prop :=
  parsedClean (Plugin.from_string s true) ∧
    (Plugin.from_string s true = none →
      parsedClean (Plugin.from_string s false))

/-- The state invariant: the loaded set is duplicate-free, every loaded
identity is fully well-shaped, has an existing install directory and an
active extension identifier, every persisted entry is well-behaved, and
nothing is loaded while plugins are disabled. -/
def StInv (st : BotState) : Prop :=
  st.loaded.Nodup ∧
    (∀ p ∈ st.loaded,
      fullClean p ∧ p.absKey ∈ st.dirs ∧ p.ext_string ∈ st.extensions) ∧
    (∀ s ∈ st.pluginsList, listOk s) ∧
    (st.enablePlugins = false → st.loaded = [])

/-- Side condition on an operation: the identities fed to it are
well-shaped enough for install-directory keys and extension identifiers
to be injective, and an update must succeed in reloading — a failed
reload deactivates the extension while the plugin stays in
loaded_plugins, after which a remove orphans it (see the
counterexample). -/
def opOk : Op → Prop
  | .initialLoad _ => True
  | .add p _ _ => fullClean p
  | .remove p => fullClean p
  | .update p _ l => fullClean p ∧ l = true

instance : (op : Op) → Decidable (opOk op)
  | .initialLoad _ => .isTrue trivial
  | .add p _ _ => inferInstanceAs (Decidable (fullClean p))
  | .remove p => inferInstanceAs (Decidable (fullClean p))
  | .update p _ l => inferInstanceAs (Decidable (fullClean p ∧ l = true))

instance (s : List Char) : Decidable (listOk s) :=
  inferInstanceAs (Decidable (parsedClean (Plugin.from_string s true) ∧
    (Plugin.from_string s true = none →
      parsedClean (Plugin.from_string s false))))

instance (st : BotState) : Decidable (StInv st) :=
  inferInstanceAs (Decidable (st.loaded.Nodup ∧
    (∀ p ∈ st.loaded,
      fullClean p ∧ p.absKey ∈ st.dirs ∧ p.ext_string ∈ st.extensions) ∧
    (∀ s ∈ st.pluginsList, listOk s) ∧
    (st.enablePlugins = false → st.loaded = [])))


/-- Unfolding of the lazy group on a cons cell when the continuation
succeeds after one character. -/
theorem lazyPlusAux_cons_some {k : List Char → List Char → Option α}
    {acc rest : List Char} {c : Char} {v : α} (hc : c ≠ '\n')
    (h : k (acc ++ [c]) rest = some v) :
    lazyPlusAux k acc (c :: rest) = some v := by
  simp [lazyPlusAux, hc, h]

/-- Unfolding of the lazy group on a cons cell when the continuation
fails after one character: the group extends. -/
theorem lazyPlusAux_cons_none {k : List Char → List Char → Option α}
    {acc rest : List Char} {c : Char} (hc : c ≠ '\n')
    (h : k (acc ++ [c]) rest = none) :
    lazyPlusAux k acc (c :: rest) = lazyPlusAux k (acc ++ [c]) rest := by
  simp [lazyPlusAux, hc, h]

/-- If the continuation fails at every split strictly inside a block of
text and succeeds exactly at its end, the lazy group captures the whole
block. -/
theorem lazyPlusAux_seg (k : List Char → List Char → Option α) (v : α) :
    ∀ (seg acc0 rest : List Char),
      seg ≠ [] → '\n' ∉ seg →
      (∀ a b, a ++ b = seg → b ≠ [] → k (acc0 ++ a) (b ++ rest) = none) →
      k (acc0 ++ seg) rest = some v →
      lazyPlusAux k acc0 (seg ++ rest) = some v := by
  intro seg
  induction seg with
  | nil => intro acc0 rest hne _ _ _; exact absurd rfl hne
  | cons c cs ih =>
    intro acc0 rest _ hnl hmid hend
    have hc : c ≠ '\n' := fun h => hnl (h ▸ List.mem_cons_self c cs)
    rw [List.cons_append]
    cases cs with
    | nil =>
      rw [List.nil_append]
      exact lazyPlusAux_cons_some hc hend
    | cons d ds =>
      have h1 : k (acc0 ++ [c]) ((d :: ds) ++ rest) = none :=
        hmid [c] (d :: ds) rfl (by simp)
      rw [lazyPlusAux_cons_none hc h1]
      apply ih (acc0 ++ [c]) rest (by simp)
        (fun h => hnl (List.mem_cons_of_mem _ h))
      · intro a b hab hb
        have h2 := hmid (c :: a) b (by rw [List.cons_append, hab]) hb
        simpa [List.append_assoc] using h2
      · simpa [List.append_assoc] using hend

/-- If the continuation fails on every suffix of the input, the lazy
group fails. -/
theorem lazyPlusAux_fails (k : List Char → List Char → Option α) :
    ∀ (s acc0 : List Char),
      (∀ a r, r <:+ s → k a r = none) →
      lazyPlusAux k acc0 s = none := by
  intro s
  induction s with
  | nil => intro acc0 _; rfl
  | cons c rest ih =>
    intro acc0 h
    by_cases hc : c = '\n'
    · subst hc; simp [lazyPlusAux]
    · rw [lazyPlusAux_cons_none hc (h _ rest (List.suffix_cons c rest))]
      exact ih (acc0 ++ [c]) fun a r hr => h a r (hr.trans (List.suffix_cons c rest))

/-- Soundness of the lazy group: a successful match splits the input into
a nonempty captured block and a remainder accepted by the continuation. -/
theorem lazyPlusAux_split (k : List Char → List Char → Option α) :
    ∀ (s acc0 : List Char) (v : α),
      lazyPlusAux k acc0 s = some v →
      ∃ a b, s = a ++ b ∧ a ≠ [] ∧ k (acc0 ++ a) b = some v := by
  intro s
  induction s with
  | nil => intro acc0 v h; exact absurd h (by simp [lazyPlusAux])
  | cons c rest ih =>
    intro acc0 v h
    by_cases hc : c = '\n'
    · rw [hc] at h; simp [lazyPlusAux] at h
    · cases hk : k (acc0 ++ [c]) rest with
      | some w =>
        rw [lazyPlusAux_cons_some hc hk] at h
        injection h with h'
        exact ⟨[c], rest, rfl, by simp, by rw [hk, h']⟩
      | none =>
        rw [lazyPlusAux_cons_none hc hk] at h
        obtain ⟨a, b, hab, hane, hka⟩ := ih (acc0 ++ [c]) v h
        exact ⟨c :: a, b, by rw [List.cons_append, ← hab], by simp,
          by simpa [List.append_assoc] using hka⟩

/-- A nonempty split inside a well-shaped segment starts with a character
that is not a separator and not a newline. -/
theorem validSeg_split {seg a bb : List Char} (h : validSeg seg)
    (hab : a ++ bb = seg) (hbb : bb ≠ []) :
    ∃ c bb', bb = c :: bb' ∧ c ≠ '/' ∧ c ≠ '@' ∧ c ≠ '\n' := by
  cases bb with
  | nil => exact absurd rfl hbb
  | cons c bb' =>
    have hc : c ∈ seg := by
      rw [← hab]; exact List.mem_append_right a (List.mem_cons_self c bb')
    obtain ⟨h1, h2, h3⟩ := h.2 c hc
    exact ⟨c, bb', rfl, h1, h2, h3⟩

/-- A well-shaped segment contains no newline. -/
theorem validSeg_no_nl {seg : List Char} (h : validSeg seg) : '\n' ∉ seg :=
  fun hm => (h.2 '\n' hm).2.2 rfl


/-- The branch group captures a whole well-shaped segment at the end of
the input. -/
theorem kBranch_seg (g1 g2 g3 b : List Char) (hb : validSeg b) :
    lazyPlusAux (kBranch g1 g2 g3) [] b = some (g1, g2, g3, some b) := by
  have h := lazyPlusAux_seg (kBranch g1 g2 g3) (g1, g2, g3, some b) b [] []
    hb.1 (validSeg_no_nl hb) ?_ ?_
  · simpa using h
  · intro a bb hab hbb
    obtain ⟨c, bb', hbbe, -, -, hcn⟩ := validSeg_split hb hab hbb
    subst hbbe
    simp [kBranch, endOk, hcn]
  · simp [kBranch, endOk]

/-- Strict name group: captures the segment before the at sign, then the
branch group takes the rest. -/
theorem kNameS_seg (g1 g2 n b : List Char) (hn : validSeg n)
    (hb : validSeg b) :
    lazyPlusAux (kNameS g1 g2) [] (n ++ '@' :: b) = some (g1, g2, n, some b) := by
  apply lazyPlusAux_seg (kNameS g1 g2) _ n [] ('@' :: b) hn.1 (validSeg_no_nl hn)
  · intro a bb hab hbb
    obtain ⟨c, bb', hbbe, -, hca, -⟩ := validSeg_split hn hab hbb
    subst hbbe
    simp [kNameS, hca]
  · simpa [kNameS] using kBranch_seg g1 g2 n b hb

/-- Non-strict name group on input with a branch: the optional group is
taken. -/
theorem kNameN_seg_at (g1 g2 n b : List Char) (hn : validSeg n)
    (hb : validSeg b) :
    lazyPlusAux (kNameN g1 g2) [] (n ++ '@' :: b) = some (g1, g2, n, some b) := by
  apply lazyPlusAux_seg (kNameN g1 g2) _ n [] ('@' :: b) hn.1 (validSeg_no_nl hn)
  · intro a bb hab hbb
    obtain ⟨c, bb', hbbe, -, hca, hcn⟩ := validSeg_split hn hab hbb
    subst hbbe
    simp [kNameN, hca, endOk, hcn]
  · simp [kNameN, kBranch_seg g1 g2 n b hb]

/-- Non-strict name group on input without a branch: the optional group
is skipped and the anchor accepts. -/
theorem kNameN_seg_noat (g1 g2 n : List Char) (hn : validSeg n) :
    lazyPlusAux (kNameN g1 g2) [] n = some (g1, g2, n, none) := by
  have h := lazyPlusAux_seg (kNameN g1 g2) (g1, g2, n, none) n [] []
    hn.1 (validSeg_no_nl hn) ?_ ?_
  · simpa using h
  · intro a bb hab hbb
    obtain ⟨c, bb', hbbe, -, hca, hcn⟩ := validSeg_split hn hab hbb
    subst hbbe
    simp [kNameN, hca, endOk, hcn]
  · simp [kNameN]

/-- Strict repo group: captures the segment before a slash, then hands
over to the given name-level result. -/
theorem kRepoS_seg (g1 r t : List Char) (gs : RawGroups) (hr : validSeg r)
    (ht : lazyPlusAux (kNameS g1 r) [] t = some gs) :
    lazyPlusAux (kRepoS g1) [] (r ++ '/' :: t) = some gs := by
  apply lazyPlusAux_seg (kRepoS g1) _ r [] ('/' :: t) hr.1 (validSeg_no_nl hr)
  · intro a bb hab hbb
    obtain ⟨c, bb', hbbe, hcs, -, -⟩ := validSeg_split hr hab hbb
    subst hbbe
    simp [kRepoS, hcs]
  · simpa [kRepoS] using ht

/-- Non-strict repo group. -/
theorem kRepoN_seg (g1 r t : List Char) (gs : RawGroups) (hr : validSeg r)
    (ht : lazyPlusAux (kNameN g1 r) [] t = some gs) :
    lazyPlusAux (kRepoN g1) [] (r ++ '/' :: t) = some gs := by
  apply lazyPlusAux_seg (kRepoN g1) _ r [] ('/' :: t) hr.1 (validSeg_no_nl hr)
  · intro a bb hab hbb
    obtain ⟨c, bb', hbbe, hcs, -, -⟩ := validSeg_split hr hab hbb
    subst hbbe
    simp [kRepoN, hcs]
  · simpa [kRepoN] using ht

/-- Strict user group. -/
theorem matchStrict_seg (o t : List Char) (gs : RawGroups) (ho : validSeg o)
    (ht : lazyPlusAux (kRepoS o) [] t = some gs) :
    matchStrict (o ++ '/' :: t) = some gs := by
  apply lazyPlusAux_seg kUserS _ o [] ('/' :: t) ho.1 (validSeg_no_nl ho)
  · intro a bb hab hbb
    obtain ⟨c, bb', hbbe, hcs, -, -⟩ := validSeg_split ho hab hbb
    subst hbbe
    simp [kUserS, hcs]
  · simpa [kUserS] using ht

/-- Non-strict user group. -/
theorem matchNonStrict_seg (o t : List Char) (gs : RawGroups) (ho : validSeg o)
    (ht : lazyPlusAux (kRepoN o) [] t = some gs) :
    matchNonStrict (o ++ '/' :: t) = some gs := by
  apply lazyPlusAux_seg kUserN _ o [] ('/' :: t) ho.1 (validSeg_no_nl ho)
  · intro a bb hab hbb
    obtain ⟨c, bb', hbbe, hcs, -, -⟩ := validSeg_split ho hab hbb
    subst hbbe
    simp [kUserN, hcs]
  · simpa [kUserN] using ht

/-- Unfolding of from_string in strict mode. -/
theorem from_string_true (s : List Char) :
    Plugin.from_string s true =
      match matchStrict s with
      | some (g1, g2, g3, g4) => some ⟨g1, g2, g3, g4.getD masterL⟩
      | none => none := rfl

/-- Unfolding of from_string in non-strict mode. -/
theorem from_string_false (s : List Char) :
    Plugin.from_string s false =
      match matchNonStrict s with
      | some (g1, g2, g3, g4) => some ⟨g1, g2, g3, g4.getD masterL⟩
      | none => none := rfl

/-- Both parses accept a well-shaped reference with an explicit branch
and capture the four segments exactly. -/
theorem from_string_valid_at (o r n b : List Char) (ho : validSeg o)
    (hr : validSeg r) (hn : validSeg n) (hb : validSeg b) :
    Plugin.from_string (o ++ '/' :: r ++ '/' :: n ++ '@' :: b) true =
        some ⟨o, r, n, b⟩ ∧
      Plugin.from_string (o ++ '/' :: r ++ '/' :: n ++ '@' :: b) false =
        some ⟨o, r, n, b⟩ := by
  have he : o ++ '/' :: r ++ '/' :: n ++ '@' :: b =
      o ++ '/' :: (r ++ '/' :: (n ++ '@' :: b)) := by
    simp [List.append_assoc]
  have hs : matchStrict (o ++ '/' :: (r ++ '/' :: (n ++ '@' :: b))) =
      some (o, r, n, some b) :=
    matchStrict_seg o _ _ ho (kRepoS_seg o r _ _ hr (kNameS_seg o r n b hn hb))
  have hns : matchNonStrict (o ++ '/' :: (r ++ '/' :: (n ++ '@' :: b))) =
      some (o, r, n, some b) :=
    matchNonStrict_seg o _ _ ho (kRepoN_seg o r _ _ hr (kNameN_seg_at o r n b hn hb))
  rw [he]
  constructor
  · rw [from_string_true, hs]
    rfl
  · rw [from_string_false, hns]
    rfl

/-- The non-strict parse accepts a well-shaped reference without a branch
and defaults the branch to master. -/
theorem from_string_valid_noat (o r n : List Char) (ho : validSeg o)
    (hr : validSeg r) (hn : validSeg n) :
    Plugin.from_string (o ++ '/' :: r ++ '/' :: n) false =
      some ⟨o, r, n, masterL⟩ := by
  have he : o ++ '/' :: r ++ '/' :: n = o ++ '/' :: (r ++ '/' :: n) := by
    simp [List.append_assoc]
  have hns : matchNonStrict (o ++ '/' :: (r ++ '/' :: n)) = some (o, r, n, none) :=
    matchNonStrict_seg o _ _ ho (kRepoN_seg o r _ _ hr (kNameN_seg_noat o r n hn))
  rw [he]
  rw [from_string_false, hns]
  rfl

/-- The strict name-level matcher fails on any text without an at sign. -/
theorem kNameS_no_at (g1 g2 : List Char) (t acc0 : List Char)
    (h : '@' ∉ t) : lazyPlusAux (kNameS g1 g2) acc0 t = none := by
  apply lazyPlusAux_fails
  intro a r hr
  cases r with
  | nil => rfl
  | cons c r' =>
    have hc : c ≠ '@' := fun hce => h (hr.subset (hce ▸ List.mem_cons_self c r'))
    simp [kNameS, hc]

/-- The strict repo-level matcher fails on any text without an at sign. -/
theorem kRepoS_no_at (g1 : List Char) (t acc0 : List Char)
    (h : '@' ∉ t) : lazyPlusAux (kRepoS g1) acc0 t = none := by
  apply lazyPlusAux_fails
  intro a r hr
  cases r with
  | nil => rfl
  | cons c r' =>
    by_cases hc : c = '/'
    · have hr' : '@' ∉ r' :=
        fun hm => h (hr.subset (List.mem_cons_of_mem _ hm))
      simp [kRepoS, hc, kNameS_no_at g1 a r' [] hr']
    · simp [kRepoS, hc]

/-- The strict parse fails on any text without an at sign. -/
theorem matchStrict_no_at (s : List Char) (h : '@' ∉ s) :
    matchStrict s = none := by
  apply lazyPlusAux_fails
  intro a r hr
  cases r with
  | nil => rfl
  | cons c r' =>
    by_cases hc : c = '/'
    · have hr' : '@' ∉ r' :=
        fun hm => h (hr.subset (List.mem_cons_of_mem _ hm))
      simp [kUserS, hc, kRepoS_no_at a r' [] hr']
    · simp [kUserS, hc]

/-- A well-shaped branchless reference contains no at sign, so its strict
parse fails. -/
theorem from_string_valid_noat_strict (o r n : List Char) (ho : validSeg o)
    (hr : validSeg r) (hn : validSeg n) :
    Plugin.from_string (o ++ '/' :: r ++ '/' :: n) true = none := by
  have h : '@' ∉ o ++ '/' :: r ++ '/' :: n := by
    intro hm
    rcases List.mem_append.1 hm with h1 | h2
    · rcases List.mem_append.1 h1 with h3 | h4
      · exact (ho.2 '@' h3).2.1 rfl
      · rcases List.mem_cons.1 h4 with h5 | h6
        · exact absurd h5 (by decide)
        · exact (hr.2 '@' h6).2.1 rfl
    · rcases List.mem_cons.1 h2 with h5 | h6
      · exact absurd h5 (by decide)
      · exact (hn.2 '@' h6).2.1 rfl
  rw [from_string_true, matchStrict_no_at _ h]

/-- A successful non-strict match needs at least two slashes in the
input. -/
theorem matchNonStrict_two_slashes (s : List Char) (gs : RawGroups)
    (h : matchNonStrict s = some gs) : 2 ≤ s.count '/' := by
  obtain ⟨a1, b1, hs1, -, hk1⟩ := lazyPlusAux_split kUserN s [] gs h
  cases b1 with
  | nil => exact absurd hk1 (by simp [kUserN])
  | cons c r1 =>
    by_cases hc : c = '/'
    · subst hc
      rw [kUserN, if_pos rfl] at hk1
      obtain ⟨a2, b2, hs2, -, hk2⟩ := lazyPlusAux_split (kRepoN _) r1 [] gs hk1
      cases b2 with
      | nil => exact absurd hk2 (by simp [kRepoN])
      | cons d r2 =>
        by_cases hd : d = '/'
        · subst hd
          rw [hs1, hs2]
          simp [List.count_append, List.count_cons]
          omega
        · rw [kRepoN, if_neg hd] at hk2
          exact absurd hk2 (by simp)
    · rw [kUserN, if_neg hc] at hk1
      exact absurd hk1 (by simp)

/-- A successful strict match needs at least two slashes in the input. -/
theorem matchStrict_two_slashes (s : List Char) (gs : RawGroups)
    (h : matchStrict s = some gs) : 2 ≤ s.count '/' := by
  obtain ⟨a1, b1, hs1, -, hk1⟩ := lazyPlusAux_split kUserS s [] gs h
  cases b1 with
  | nil => exact absurd hk1 (by simp [kUserS])
  | cons c r1 =>
    by_cases hc : c = '/'
    · subst hc
      rw [kUserS, if_pos rfl] at hk1
      obtain ⟨a2, b2, hs2, -, hk2⟩ := lazyPlusAux_split (kRepoS _) r1 [] gs hk1
      cases b2 with
      | nil => exact absurd hk2 (by simp [kRepoS])
      | cons d r2 =>
        by_cases hd : d = '/'
        · subst hd
          rw [hs1, hs2]
          simp [List.count_append, List.count_cons]
          omega
        · rw [kRepoS, if_neg hd] at hk2
          exact absurd hk2 (by simp)
    · rw [kUserS, if_neg hc] at hk1
      exact absurd hk1 (by simp)

/-- Any reference with fewer than two slashes is rejected by both
parses. -/
theorem from_string_few_slashes (s : List Char) (m : Bool)
    (h : s.count '/' < 2) : Plugin.from_string s m = none := by
  cases m
  · cases hns : matchNonStrict s with
    | none => simp [Plugin.from_string, hns]
    | some gs => exact absurd (matchNonStrict_two_slashes s gs hns) (by omega)
  · cases hs : matchStrict s with
    | none => simp [Plugin.from_string, hs]
    | some gs => exact absurd (matchStrict_two_slashes s gs hs) (by omega)

/-- Whenever all four fields are well-shaped, both parses invert the str
serialization of an identity. -/
theorem from_string_serial (p : Plugin) (h : fieldsClean p) :
    Plugin.from_string p.serial true = some p ∧
      Plugin.from_string p.serial false = some p := by
  obtain ⟨hu, hr, hn, hb⟩ := h
  have := from_string_valid_at p.user p.repo p.name p.branch hu hr hn hb
  exact this


/-- Splitting two equal concatenations at a separator character that
occurs in neither left part identifies both sides. -/
theorem append_sep_inj (c : Char) :
    ∀ (x1 x2 t1 t2 : List Char), c ∉ x1 → c ∉ x2 →
      x1 ++ c :: t1 = x2 ++ c :: t2 → x1 = x2 ∧ t1 = t2 := by
  intro x1
  induction x1 with
  | nil =>
    intro x2 t1 t2 _ h2 he
    cases x2 with
    | nil => simpa using he
    | cons d x2' =>
      rw [List.nil_append, List.cons_append] at he
      injection he with hd _
      subst hd
      exact absurd (List.mem_cons_self c x2') h2
  | cons a x1' ih =>
    intro x2 t1 t2 h1 h2 he
    cases x2 with
    | nil =>
      rw [List.cons_append, List.nil_append] at he
      injection he with hd _
      subst hd
      exact absurd (List.mem_cons_self a x1') h1
    | cons d x2' =>
      rw [List.cons_append, List.cons_append] at he
      injection he with hd ht
      subst hd
      have h1' : c ∉ x1' := fun hm => h1 (List.mem_cons_of_mem _ hm)
      have h2' : c ∉ x2' := fun hm => h2 (List.mem_cons_of_mem _ hm)
      obtain ⟨hx, htt⟩ := ih x2' t1 t2 h1' h2' ht
      exact ⟨by rw [hx], htt⟩

/-- When the owner and repo fields contain no dot, the extension
identifier is injective for identities sharing one plain name. -/
theorem ext_string_inj_nodot (p q : Plugin) (hpu : '.' ∉ p.user)
    (hqu : '.' ∉ q.user) (hpr : '.' ∉ p.repo) (hqr : '.' ∉ q.repo)
    (hname : p.name = q.name) (hext : p.ext_string = q.ext_string) :
    p = q := by
  obtain ⟨u1, r1, n1, b1⟩ := p
  obtain ⟨u2, r2, n2, b2⟩ := q
  simp only at hname hpu hqu hpr hqr
  subst hname
  unfold Plugin.ext_string at hext
  simp only [List.append_assoc, List.cons_append] at hext
  have h1 := List.append_cancel_left hext
  obtain ⟨hu, h2⟩ := append_sep_inj '.' u1 u2 _ _ hpu hqu h1
  obtain ⟨hr, h3⟩ := append_sep_inj '.' r1 r2 _ _ hpr hqr h2
  have h4 := List.append_cancel_left h3
  injection h4 with _ h5
  have hb := List.append_cancel_right h5
  simp [hu, hr, hb]

/-- On fully well-shaped identities (dot-free owner and repo, hyphen-free
name) the extension identifier is injective outright. -/
theorem ext_string_inj_clean {p q : Plugin} (hp : fullClean p)
    (hq : fullClean q) (hext : p.ext_string = q.ext_string) : p = q := by
  obtain ⟨u1, r1, n1, b1⟩ := p
  obtain ⟨u2, r2, n2, b2⟩ := q
  obtain ⟨-, hpn, hpu, hpr⟩ := hp
  obtain ⟨-, hqn, hqu, hqr⟩ := hq
  simp only at hpn hpu hpr hqn hqu hqr
  unfold Plugin.ext_string at hext
  simp only [List.append_assoc, List.cons_append] at hext
  have h1 := List.append_cancel_left hext
  obtain ⟨hu, h2⟩ := append_sep_inj '.' u1 u2 _ _ hpu hqu h1
  obtain ⟨hr, h3⟩ := append_sep_inj '.' r1 r2 _ _ hpr hqr h2
  obtain ⟨hn, h4⟩ := append_sep_inj '-' n1 n2 _ _ hpn hqn h3
  rw [hn] at h4
  have hb := List.append_cancel_right h4
  simp [hu, hr, hn, hb]

/-- The element just inserted is a member. -/
theorem mem_insertIfAbsent_self [DecidableEq α] (a : α) (l : List α) :
    a ∈ insertIfAbsent a l := by
  unfold insertIfAbsent
  split
  · assumption
  · exact List.mem_cons_self a l

/-- Insertion keeps old members. -/
theorem mem_insertIfAbsent_of_mem [DecidableEq α] (a : α) {x : α}
    {l : List α} (h : x ∈ l) : x ∈ insertIfAbsent a l := by
  unfold insertIfAbsent
  split
  · exact h
  · exact List.mem_cons_of_mem a h

/-- Members after insertion are the new element or old members. -/
theorem mem_insertIfAbsent_iff [DecidableEq α] (a x : α) (l : List α) :
    x ∈ insertIfAbsent a l ↔ x = a ∨ x ∈ l := by
  unfold insertIfAbsent
  split
  · rename_i hmem
    constructor
    · exact Or.inr
    · rintro (rfl | h)
      · exact hmem
      · exact h
  · exact List.mem_cons

/-- Insertion preserves freedom from duplicates. -/
theorem nodup_insertIfAbsent [DecidableEq α] (a : α) {l : List α}
    (h : l.Nodup) : (insertIfAbsent a l).Nodup := by
  unfold insertIfAbsent
  split
  · exact h
  · rename_i hnm
    exact List.nodup_cons.2 ⟨hnm, h⟩

/-- Install-directory keys are injective on identities with hyphen-free
names. -/
theorem absKey_inj {p q : Plugin} (hp : '-' ∉ p.name) (hq : '-' ∉ q.name)
    (h : p.absKey = q.absKey) : p = q := by
  obtain ⟨u1, r1, n1, b1⟩ := p
  obtain ⟨u2, r2, n2, b2⟩ := q
  simp only at hp hq
  simp only [Plugin.absKey, List.cons.injEq, and_true] at h
  obtain ⟨-, hu, hr, hnb⟩ := h
  obtain ⟨hn, hb⟩ := append_sep_inj '-' n1 n2 b1 b2 hp hq hnb
  simp [hu, hr, hn, hb]

/-- A successful download leaves every field except the directory tree
and the cache untouched, keeps old directories, and guarantees the
install directory of the requested plugin exists afterwards. -/
theorem downloadStep_ok {st st' : BotState} {p : Plugin} {force f : Bool}
    {k : Nat} (h : downloadStep st p force f = .ok (st', k)) :
    st'.pluginsList = st.pluginsList ∧ st'.loaded = st.loaded ∧
      st'.extensions = st.extensions ∧
      st'.cogNames = st.cogNames ∧ st'.enablePlugins = st.enablePlugins ∧
      st'.ready = st.ready ∧ (∀ d ∈ st.dirs, d ∈ st'.dirs) ∧
      p.absKey ∈ st'.dirs := by
  unfold downloadStep at h
  split at h
  · rename_i hcond
    simp only [Except.ok.injEq, Prod.mk.injEq] at h
    obtain ⟨rfl, -⟩ := h
    exact ⟨rfl, rfl, rfl, rfl, rfl, rfl, fun d hd => hd, hcond.1⟩
  · dsimp only at h
    split at h
    · simp only [Except.ok.injEq, Prod.mk.injEq] at h
      obtain ⟨rfl, -⟩ := h
      exact ⟨rfl, rfl, rfl, rfl, rfl, rfl,
        fun d hd => mem_insertIfAbsent_of_mem _ hd,
        mem_insertIfAbsent_self _ _⟩
    · split at h
      · simp only [Except.ok.injEq, Prod.mk.injEq] at h
        obtain ⟨rfl, -⟩ := h
        exact ⟨rfl, rfl, rfl, rfl, rfl, rfl,
          fun d hd => mem_insertIfAbsent_of_mem _ hd,
          mem_insertIfAbsent_self _ _⟩
      · exact absurd h (by simp)

/-- A failed download raises after creating the install directory: every
field except the directory tree is untouched. -/
theorem downloadStep_error {st st' : BotState} {p : Plugin} {force f : Bool}
    (h : downloadStep st p force f = .error st') :
    st'.pluginsList = st.pluginsList ∧ st'.loaded = st.loaded ∧
      st'.extensions = st.extensions ∧
      st'.cogNames = st.cogNames ∧ st'.enablePlugins = st.enablePlugins ∧
      st'.ready = st.ready ∧ st'.caches = st.caches ∧
      (∀ d ∈ st.dirs, d ∈ st'.dirs) ∧ p.absKey ∈ st'.dirs := by
  unfold downloadStep at h
  split at h
  · exact absurd h (by simp)
  · dsimp only at h
    split at h
    · exact absurd h (by simp)
    · split at h
      · exact absurd h (by simp)
      · simp only [Except.error.injEq] at h
        subst h
        exact ⟨rfl, rfl, rfl, rfl, rfl, rfl, rfl,
          fun d hd => mem_insertIfAbsent_of_mem _ hd,
          mem_insertIfAbsent_self _ _⟩

/-- The append of a well-behaved entry keeps the persisted list
well-behaved. -/
theorem listOk_serial {p : Plugin} (h : fullClean p) :
    listOk p.serial := by
  have hs := (from_string_serial p h.1).1
  constructor
  · rw [hs]
    exact h
  · intro hcontra
    rw [hs] at hcontra
    simp at hcontra


/-- The invariant transfers along a state change that keeps the loaded
set, the persisted list and the feature flag, and only grows the
directory tree. -/
theorem StInv_transfer {st st' : BotState} (hst : StInv st)
    (hl : st'.loaded = st.loaded) (hpl : st'.pluginsList = st.pluginsList)
    (he : st'.enablePlugins = st.enablePlugins)
    (hx : st'.extensions = st.extensions)
    (hd : ∀ d ∈ st.dirs, d ∈ st'.dirs) : StInv st' := by
  obtain ⟨h1, h2, h3, h4⟩ := hst
  refine ⟨hl ▸ h1, ?_, ?_, ?_⟩
  · intro p hp
    rw [hl] at hp
    refine ⟨(h2 p hp).1, hd _ (h2 p hp).2.1, ?_⟩
    rw [hx]
    exact (h2 p hp).2.2
  · intro s hs
    rw [hpl] at hs
    exact h3 s hs
  · intro hh
    rw [hl]
    exact h4 (he ▸ hh)

/-- Loading a clean plugin whose install directory exists preserves the
invariant while plugins are enabled. -/
theorem StInv_insert_loaded {st : BotState} {p : Plugin} (hst : StInv st)
    (hp : fullClean p) (hdir : p.absKey ∈ st.dirs)
    (hen : st.enablePlugins = true) :
    StInv { st with
      loaded := insertIfAbsent p st.loaded,
      extensions := insertIfAbsent p.ext_string st.extensions } := by
  obtain ⟨h1, h2, h3, h4⟩ := hst
  refine ⟨nodup_insertIfAbsent p h1, ?_, h3, ?_⟩
  · intro q hq
    rcases (mem_insertIfAbsent_iff p q st.loaded).1 hq with rfl | hq'
    · exact ⟨hp, hdir, mem_insertIfAbsent_self _ _⟩
    · exact ⟨(h2 q hq').1, (h2 q hq').2.1,
        mem_insertIfAbsent_of_mem _ (h2 q hq').2.2⟩
  · intro hh
    simp [hen] at hh

/-- One caught fetch-and-load attempt of the bulk load preserves the
invariant, the feature flag, the persisted list and the readiness bit. -/
theorem StInv_tryDL {st : BotState} {p : Plugin} {f l : Bool}
    (hst : StInv st) (hp : fullClean p) (hen : st.enablePlugins = true) :
    StInv (tryDownloadLoad st p f l) ∧
      (tryDownloadLoad st p f l).enablePlugins = true ∧
      (tryDownloadLoad st p f l).pluginsList = st.pluginsList := by
  unfold tryDownloadLoad
  cases hd : downloadStep st p false f with
  | error st1 =>
    obtain ⟨e1, e2, ex, e3, e4, e5, e6, e7, e8⟩ := downloadStep_error hd
    exact ⟨StInv_transfer hst e2 e1 e4 ex e7, by rw [e4]; exact hen, e1⟩
  | ok pr =>
    obtain ⟨st1, k⟩ := pr
    obtain ⟨e1, e2, ex, e3, e4, e5, e6, e7⟩ := downloadStep_ok hd
    have hst1 : StInv st1 := StInv_transfer hst e2 e1 e4 ex e6
    have hen1 : st1.enablePlugins = true := by rw [e4]; exact hen
    cases l with
    | false => exact ⟨hst1, hen1, e1⟩
    | true =>
      exact ⟨StInv_insert_loaded hst1 hp e7 hen1, by simpa using hen1,
        by simpa using e1⟩

/-- The loop of the bulk initial load preserves the invariant when every
processed entry is well-behaved. -/
theorem StInv_pass (orc : List Char → Bool × Bool) :
    ∀ (names : List (List Char)) (st : BotState),
      st.enablePlugins = true → StInv st → (∀ s ∈ names, listOk s) →
      StInv (initial_load_pass st names orc).1 ∧
        (initial_load_pass st names orc).1.enablePlugins = true := by
  intro names
  induction names with
  | nil => intro st hen hst _; exact ⟨hst, hen⟩
  | cons s rest ih =>
    intro st hen hst hnames
    have hrest : ∀ x ∈ rest, listOk x :=
      fun x hx => hnames x (List.mem_cons_of_mem _ hx)
    have hok := hnames s (List.mem_cons_self s rest)
    simp only [initial_load_pass]
    cases hp : Plugin.from_string s true with
    | some p =>
      have hpc : fullClean p := by
        have h := hok.1
        rw [hp] at h
        exact h
      obtain ⟨hTD, hTDen, -⟩ :=
        @StInv_tryDL st p (orc s).1 (orc s).2 hst hpc hen
      exact ih _ hTDen hTD hrest
    | none =>
      cases hq : Plugin.from_string s false with
      | none =>
        apply ih
        · exact hen
        · obtain ⟨h1, h2, h3, h4⟩ := hst
          exact ⟨h1, h2, fun x hx => h3 x (List.mem_of_mem_erase hx), h4⟩
        · exact hrest
      | some q =>
        have hqc : fullClean q := by
          have h := hok.2 hp
          rw [hq] at h
          exact h
        dsimp only
        have hst2 : StInv { st with
            pluginsList := st.pluginsList.erase s ++ [q.serial] } := by
          obtain ⟨h1, h2, h3, h4⟩ := hst
          refine ⟨h1, h2, ?_, h4⟩
          intro x hx
          rcases List.mem_append.1 hx with hx1 | hx2
          · exact h3 x (List.mem_of_mem_erase hx1)
          · rw [List.mem_singleton.1 hx2]
            exact listOk_serial hqc
        obtain ⟨hTD, hTDen, -⟩ :=
          @StInv_tryDL { st with
              pluginsList := st.pluginsList.erase s ++ [q.serial] }
            q (orc s).1 (orc s).2 hst2 hqc (by simpa using hen)
        exact ih _ hTDen hTD hrest

/-- The add command preserves the invariant for clean identities. -/
theorem StInv_add {st : BotState} {p : Plugin} {f l : Bool}
    (hst : StInv st) (hp : fullClean p) : StInv (plugins_add st p f l).1 := by
  unfold plugins_add
  split
  · exact hst
  · split
    · exact hst
    · split
      · exact hst
      · cases hd : downloadStep st p true f with
        | error st1 =>
          obtain ⟨e1, e2, ex, e3, e4, e5, e6, e7, e8⟩ := downloadStep_error hd
          exact StInv_transfer hst e2 e1 e4 ex e7
        | ok pr =>
          obtain ⟨st1, k⟩ := pr
          dsimp only
          obtain ⟨e1, e2, ex, e3, e4, e5, e6, e7⟩ := downloadStep_ok hd
          have hst2 : StInv { st1 with
              pluginsList := st1.pluginsList ++ [p.serial] } := by
            obtain ⟨h1, h2, h3, h4⟩ := hst
            refine ⟨?_, ?_, ?_, ?_⟩
            · show st1.loaded.Nodup
              rw [e2]; exact h1
            · intro q hq
              rw [show ({ st1 with
                  pluginsList := st1.pluginsList ++ [p.serial] } :
                    BotState).loaded = st1.loaded from rfl, e2] at hq
              refine ⟨(h2 q hq).1, e6 _ (h2 q hq).2.1, ?_⟩
              show q.ext_string ∈ st1.extensions
              rw [ex]
              exact (h2 q hq).2.2
            · intro x hx
              rcases List.mem_append.1 hx with hx1 | hx2
              · rw [e1] at hx1
                exact h3 x hx1
              · rw [List.mem_singleton.1 hx2]
                exact listOk_serial hp
            · intro hh
              have hh' : st.enablePlugins = false := by rw [← e4]; exact hh
              show st1.loaded = []
              rw [e2]
              exact h4 hh'
          split
          · rename_i hen2
            cases l with
            | false => exact hst2
            | true => exact StInv_insert_loaded hst2 hp e7 hen2
          · exact hst2

/-- The remove command preserves the invariant for hyphen-free names. -/
theorem StInv_remove {st : BotState} {p : Plugin} (hst : StInv st)
    (hp : fullClean p) : StInv (plugins_remove st p).1 := by
  unfold plugins_remove
  split
  · exact hst
  · split
    · dsimp only
      obtain ⟨h1, h2, h3, h4⟩ := hst
      by_cases hen : st.enablePlugins = true
      · rw [if_pos hen]
        by_cases hext : p.ext_string ∈ st.extensions
        · rw [if_pos hext]
          refine ⟨h1.erase p, ?_, ?_, ?_⟩
          · intro q hq
            have hqm : q ∈ st.loaded := List.mem_of_mem_erase hq
            have hqp : q ≠ p := ((List.Nodup.mem_erase_iff h1).1 hq).1
            have hkey : q.absKey ≠ p.absKey :=
              fun he => hqp (absKey_inj (h2 q hqm).1.2.1 hp.2.1 he)
            have hxkey : q.ext_string ≠ p.ext_string :=
              fun he => hqp (ext_string_inj_clean (h2 q hqm).1 hp he)
            exact ⟨(h2 q hqm).1,
              (List.mem_erase_of_ne hkey).2 (h2 q hqm).2.1,
              (List.mem_erase_of_ne hxkey).2 (h2 q hqm).2.2⟩
          · intro x hx
            exact h3 x (List.mem_of_mem_erase hx)
          · intro hh
            simp [hen] at hh
        · rw [if_neg hext]
          refine ⟨h1, ?_, ?_, ?_⟩
          · intro q hq
            have hqp : q ≠ p := by
              rintro rfl
              exact hext (h2 q hq).2.2
            have hkey : q.absKey ≠ p.absKey :=
              fun he => hqp (absKey_inj (h2 q hq).1.2.1 hp.2.1 he)
            exact ⟨(h2 q hq).1,
              (List.mem_erase_of_ne hkey).2 (h2 q hq).2.1, (h2 q hq).2.2⟩
          · intro x hx
            exact h3 x (List.mem_of_mem_erase hx)
          · intro hh
            simp [hen] at hh
      · rw [if_neg hen]
        have hef : st.enablePlugins = false := by simpa using hen
        have hloaded : st.loaded = [] := h4 hef
        refine ⟨?_, ?_, ?_, ?_⟩
        · show st.loaded.Nodup
          rw [hloaded]; exact List.nodup_nil
        · intro q hq
          rw [show ({ st with
              pluginsList := st.pluginsList.erase p.serial,
              dirs := st.dirs.erase p.absKey } : BotState).loaded =
                st.loaded from rfl, hloaded] at hq
          cases hq
        · intro x hx
          exact h3 x (List.mem_of_mem_erase hx)
        · intro _
          exact hloaded
    · exact hst

/-- The update command preserves the invariant for hyphen-free names,
whether it returns or raises. -/
theorem StInv_update {st : BotState} {p : Plugin} {f l : Bool}
    (hst : StInv st) (hp : fullClean p) (hl : l = true) :
    StInv (opStep st (Op.update p f l)) := by
  subst hl
  unfold opStep update_plugin_p update_body
  by_cases hr : st.ready = false
  · simp only [if_pos hr]
    exact hst
  · simp only [if_neg hr]
    by_cases hm : p.serial ∈ st.pluginsList
    · simp only [if_pos hm]
      cases hd : downloadStep st p true f with
      | error st1 =>
        obtain ⟨e1, e2, ex, e3, e4, e5, e6, e7, e8⟩ := downloadStep_error hd
        exact StInv_transfer hst e2 e1 e4 ex e7
      | ok pr =>
        obtain ⟨st1, k⟩ := pr
        obtain ⟨e1, e2, ex, e3, e4, e5, e6, e7⟩ := downloadStep_ok hd
        have hst1 : StInv st1 := StInv_transfer hst e2 e1 e4 ex e6
        by_cases hen : st1.enablePlugins = true
        · simp only [if_pos hen]
          show StInv { st1 with
            loaded := insertIfAbsent p st1.loaded,
            extensions := insertIfAbsent p.ext_string
              (st1.extensions.erase p.ext_string) }
          obtain ⟨h1, h2, h3, h4⟩ := hst1
          refine ⟨nodup_insertIfAbsent p h1, ?_, h3, ?_⟩
          · intro q hq
            rcases (mem_insertIfAbsent_iff p q st1.loaded).1 hq with rfl | hq'
            · exact ⟨hp, e7, mem_insertIfAbsent_self _ _⟩
            · refine ⟨(h2 q hq').1, (h2 q hq').2.1, ?_⟩
              by_cases hxq : q.ext_string = p.ext_string
              · rw [hxq]
                exact mem_insertIfAbsent_self _ _
              · exact mem_insertIfAbsent_of_mem _
                  ((List.mem_erase_of_ne hxq).2 (h2 q hq').2.2)
          · intro hh
            simp [hen] at hh
        · simp only [if_neg hen]
          exact hst1
    · simp only [if_neg hm]
      exact hst

/-- Every orchestrator step preserves the invariant. -/
theorem StInv_opStep {st : BotState} {op : Op} (hst : StInv st)
    (hop : opOk op) : StInv (opStep st op) := by
  cases op with
  | initialLoad orc =>
    show StInv (if st.enablePlugins = true then (initial_load_run st orc).1 else st)
    by_cases hen : st.enablePlugins = true
    · rw [if_pos hen]
      unfold initial_load_run
      obtain ⟨hpass, -⟩ :=
        StInv_pass orc st.pluginsList st hen hst hst.2.2.1
      exact StInv_transfer hpass rfl rfl rfl rfl (fun d hd => hd)
    · rw [if_neg hen]
      exact hst
  | add p f l => exact StInv_add hst hop
  | remove p => exact StInv_remove hst hop
  | update p f l => exact StInv_update hst hop.1 hop.2

/-- A sequence of orchestrator steps over well-shaped operations
preserves the invariant. -/
theorem StInv_steps :
    ∀ (ops : List Op) (st : BotState), StInv st →
      (∀ op ∈ ops, opOk op) → StInv (ops.foldl opStep st) := by
  intro ops
  induction ops with
  | nil => intro st hst _; exact hst
  | cons op rest ih =>
    intro st hst hops
    exact ih _ (StInv_opStep hst (hops op (List.mem_cons_self op rest)))
      (fun o ho => hops o (List.mem_cons_of_mem _ ho))


/-- The strict parse fails on any text without an at sign. -/
theorem from_string_no_at (s : List Char) (h : '@' ∉ s) :
    Plugin.from_string s true = none := by
  rw [from_string_true, matchStrict_no_at s h]

/-- A forced download with a failing fetch raises after creating only the
install directory. -/
theorem downloadStep_force_nofetch (st : BotState) (p : Plugin) :
    downloadStep st p true false =
      .error { st with dirs := insertIfAbsent p.absKey st.dirs } := by
  unfold downloadStep
  rw [if_neg (by simp)]
  dsimp only
  rw [if_neg (by simp)]
  rfl

/-- A download whose fetch oracle succeeds never raises. -/
theorem downloadStep_fetchOk_ok (st : BotState) (p : Plugin) (force : Bool) :
    ∃ st' k, downloadStep st p force true = .ok (st', k) := by
  unfold downloadStep
  split
  · exact ⟨st, 0, rfl⟩
  · dsimp only
    split
    · exact ⟨_, 0, rfl⟩
    · rw [if_pos rfl]
      exact ⟨_, 1, rfl⟩

/-- One caught fetch-and-load attempt never touches the persisted list,
the readiness bit, the cog names or the feature flag. -/
theorem tryDL_fields (st : BotState) (p : Plugin) (f l : Bool) :
    (tryDownloadLoad st p f l).pluginsList = st.pluginsList ∧
      (tryDownloadLoad st p f l).ready = st.ready ∧
      (tryDownloadLoad st p f l).enablePlugins = st.enablePlugins := by
  unfold tryDownloadLoad
  cases hd : downloadStep st p false f with
  | error st1 =>
    obtain ⟨e1, e2, ex, e3, e4, e5, e6, e7, e8⟩ := downloadStep_error hd
    exact ⟨e1, e5, e4⟩
  | ok pr =>
    obtain ⟨st1, k⟩ := pr
    obtain ⟨e1, e2, ex, e3, e4, e5, e6, e7⟩ := downloadStep_ok hd
    cases l with
    | false => exact ⟨e1, e5, e4⟩
    | true => exact ⟨e1, e5, e4⟩

/-- The add command before the readiness gate opened reports the loading
message and leaves the state untouched. -/
theorem plugins_add_not_ready (st : BotState) (p : Plugin) (f l : Bool)
    (h : st.ready = false) :
    plugins_add st p f l = (st, AddResult.stillLoading) := by
  unfold plugins_add
  rw [if_pos h]

/-- The remove command before the readiness gate opened reports the
loading message and leaves the state untouched. -/
theorem plugins_remove_not_ready (st : BotState) (p : Plugin)
    (h : st.ready = false) :
    plugins_remove st p = (st, RemoveResult.stillLoading) := by
  unfold plugins_remove
  rw [if_pos h]

/-- The update command before the readiness gate opened reports the
loading message and leaves the state untouched. -/
theorem update_plugin_p_not_ready (st : BotState) (p : Plugin) (f l : Bool)
    (h : st.ready = false) :
    update_plugin_p st p f l = .ok (st, UpdateResult.stillLoading) := by
  unfold update_plugin_p
  rw [if_pos h]

/-- The string-level update command before the readiness gate opened. -/
theorem update_plugin_str_not_ready (st : BotState) (s : List Char)
    (f l : Bool) (h : st.ready = false) :
    update_plugin_str st s f l = .ok (st, UpdateResult.stillLoading) := by
  unfold update_plugin_str
  rw [if_pos h]

/-- With the feature flag off and the gate closed, no orchestrator step
changes the state at all. -/
theorem opStep_frozen {st : BotState} (he : st.enablePlugins = false)
    (hr : st.ready = false) (op : Op) : opStep st op = st := by
  cases op with
  | initialLoad orc =>
    show (if st.enablePlugins = true then (initial_load_run st orc).1 else st) = st
    rw [he]
    simp
  | add p f l =>
    show (plugins_add st p f l).1 = st
    rw [plugins_add_not_ready st p f l hr]
  | remove p =>
    show (plugins_remove st p).1 = st
    rw [plugins_remove_not_ready st p hr]
  | update p f l =>
    show (match update_plugin_p st p f l with
      | .error st' => st'
      | .ok (st', _) => st') = st
    rw [update_plugin_p_not_ready st p f l hr]

/-- With the feature flag off and the gate closed, any sequence of
orchestrator steps is a no-op. -/
theorem steps_frozen :
    ∀ (ops : List Op) (st : BotState), st.enablePlugins = false →
      st.ready = false → ops.foldl opStep st = st := by
  intro ops
  induction ops with
  | nil => intro st _ _; rfl
  | cons op rest ih =>
    intro st he hr
    show rest.foldl opStep (opStep st op) = st
    rw [opStep_frozen he hr op]
    exact ih st he hr

/-- The string-level update with both oracles succeeding never raises. -/
theorem update_str_total (st : BotState) (s : List Char) :
    ∃ st' r, update_plugin_str st s true true = .ok (st', r) := by
  unfold update_plugin_str
  by_cases hr : st.ready = false
  · rw [if_pos hr]
    exact ⟨st, .stillLoading, rfl⟩
  · rw [if_neg hr]
    cases hp : Plugin.from_string s false with
    | none => exact ⟨st, .parseFail, rfl⟩
    | some p =>
      unfold update_body
      dsimp only
      by_cases hm : p.serial ∈ st.pluginsList
      · rw [if_pos hm]
        obtain ⟨st1, k, hd⟩ := downloadStep_fetchOk_ok st p true
        rw [hd]
        dsimp only
        by_cases hen : st1.enablePlugins = true
        · rw [if_pos hen]
          exact ⟨_, .updated, rfl⟩
        · rw [if_neg hen]
          exact ⟨st1, .updated, rfl⟩
      · rw [if_neg hm]
        exact ⟨st, .notInstalled, rfl⟩

/-- When every per-entry oracle succeeds, the update-all loop attempts
every entry of the list in order. -/
theorem run_update_attempts_all :
    ∀ (names : List (List Char)) (st : BotState)
      (orc : List Char → Bool × Bool),
      (∀ s ∈ names, orc s = (true, true)) →
      (run_update_list st names orc).1 = names := by
  intro names
  induction names with
  | nil => intro st orc _; rfl
  | cons s rest ih =>
    intro st orc horc
    have hs := horc s (List.mem_cons_self s rest)
    obtain ⟨st', r, he⟩ := update_str_total st s
    simp only [run_update_list, hs]
    rw [he]
    dsimp only
    rw [ih _ orc (fun x hx => horc x (List.mem_cons_of_mem _ hx))]

/-- An entry that fails to parse is reported and does not stop the
update-all loop: the remaining entries are attempted on an unchanged
state. -/
theorem run_update_parsefail_cons (st : BotState) (s : List Char)
    (rest : List (List Char)) (orc : List Char → Bool × Bool)
    (hr : st.ready = true) (hp : Plugin.from_string s false = none) :
    (run_update_list st (s :: rest) orc).1 =
      s :: (run_update_list st rest orc).1 := by
  have he : update_plugin_str st s (orc s).1 (orc s).2 =
      .ok (st, .parseFail) := by
    unfold update_plugin_str
    rw [if_neg (by rw [hr]; simp)]
    simp only [hp]
  simp only [run_update_list]
  rw [he]


/-- In a trace consisting of one rewrite, the gate opening and the
persist, the gate opening comes first. -/
theorem precedes_gate_persist (a b : List Char) :
    precedes Event.gateSet Event.persistEvt
      [Event.memRewrite a b, Event.gateSet, Event.persistEvt] := by
  refine ⟨by simp, by simp, ?_⟩
  show List.indexOf Event.gateSet _ < List.indexOf Event.persistEvt _
  rw [List.indexOf_cons_ne _ (fun h => Event.noConfusion h),
    List.indexOf_cons_self,
    List.indexOf_cons_ne _ (fun h => Event.noConfusion h),
    List.indexOf_cons_ne _ (fun h => Event.noConfusion h),
    List.indexOf_cons_self]
  omega

/-- Bulk initial load over a single legacy entry: the entry is rewritten
in memory to its at-master serialization and persisted, and the trace
opens the gate before the persist. -/
theorem initial_load_legacy (o r n : List Char) (ho : validSeg o)
    (hr : validSeg r) (hn : validSeg n) (dirs : List (List (List Char)))
    (caches : List (List Char)) (loaded : List Plugin)
    (exts : List (List Char)) (cogs : List (List Char)) (en : Bool)
    (orc : List Char → Bool × Bool) :
    (initial_load_run
        ⟨[o ++ '/' :: r ++ '/' :: n], dirs, caches, loaded, exts, cogs, en, false⟩
        orc).1.pluginsList = [Plugin.serial ⟨o, r, n, masterL⟩] ∧
      (initial_load_run
        ⟨[o ++ '/' :: r ++ '/' :: n], dirs, caches, loaded, exts, cogs, en, false⟩
        orc).1.ready = true ∧
      (initial_load_run
        ⟨[o ++ '/' :: r ++ '/' :: n], dirs, caches, loaded, exts, cogs, en, false⟩
        orc).2 =
        [Event.memRewrite (o ++ '/' :: r ++ '/' :: n)
          (Plugin.serial ⟨o, r, n, masterL⟩),
         Event.gateSet, Event.persistEvt] ∧
      precedes Event.gateSet Event.persistEvt
        (initial_load_run
          ⟨[o ++ '/' :: r ++ '/' :: n], dirs, caches, loaded, exts, cogs, en, false⟩
          orc).2 := by
  have hstrict := from_string_valid_noat_strict o r n ho hr hn
  have hns := from_string_valid_noat o r n ho hr hn
  have hpass : initial_load_pass
      ⟨[o ++ '/' :: r ++ '/' :: n], dirs, caches, loaded, exts, cogs, en, false⟩
      [o ++ '/' :: r ++ '/' :: n] orc =
      (tryDownloadLoad
        ⟨[Plugin.serial ⟨o, r, n, masterL⟩], dirs, caches, loaded, exts, cogs,
          en, false⟩
        ⟨o, r, n, masterL⟩ (orc (o ++ '/' :: r ++ '/' :: n)).1
        (orc (o ++ '/' :: r ++ '/' :: n)).2,
       [Event.memRewrite (o ++ '/' :: r ++ '/' :: n)
         (Plugin.serial ⟨o, r, n, masterL⟩)]) := by
    simp only [initial_load_pass, hstrict, hns, List.erase_cons_head,
      List.nil_append]
  unfold initial_load_run
  dsimp only
  rw [hpass]
  dsimp only
  obtain ⟨f1, f2, f3⟩ := tryDL_fields
    ⟨[Plugin.serial ⟨o, r, n, masterL⟩], dirs, caches, loaded, exts, cogs, en, false⟩
    ⟨o, r, n, masterL⟩ (orc (o ++ '/' :: r ++ '/' :: n)).1
    (orc (o ++ '/' :: r ++ '/' :: n)).2
  refine ⟨?_, rfl, rfl, ?_⟩
  · rw [f1]
  · exact precedes_gate_persist _ _

example :
    Plugin.from_string "a/b/c".toList false =
      some ⟨"a".toList, "b".toList, "c".toList, "master".toList⟩ := by decide

example : Plugin.from_string "a/b/c".toList true = none := by decide

example :
    Plugin.from_string "a/b/c@d".toList true =
      some ⟨"a".toList, "b".toList, "c".toList, "d".toList⟩ := by decide

example :
    Plugin.from_string "a/b/c/d".toList false =
      some ⟨"a".toList, "b".toList, "c/d".toList, "master".toList⟩ := by decide

example : Plugin.from_string "a//c".toList false = none := by decide

example :
    Plugin.from_string "a//c/d".toList false =
      some ⟨"a".toList, "/c".toList, "d".toList, "master".toList⟩ := by decide

/-- Claim C1: add fails with the already-installed conflict when the
serialized identity is in the persisted list, leaving the whole state
(install directory included) untouched; a failed forced fetch leaves the
persisted list unchanged; and the identity appears in the persisted list
after an add only if it was already there or the fetch succeeded. -/
theorem C1_add_conflict_and_persist_order (st : BotState) (p : Plugin)
    (f l : Bool) :
    (st.ready = true → p.serial ∈ st.pluginsList →
      plugins_add st p f l = (st, AddResult.alreadyInstalled)) ∧
    (plugins_add st p false l).1.pluginsList = st.pluginsList ∧
    (p.serial ∈ (plugins_add st p f l).1.pluginsList →
      p.serial ∈ st.pluginsList ∨ f = true) := by
  have h2 : ∀ l' : Bool,
      (plugins_add st p false l').1.pluginsList = st.pluginsList := by
    intro l'
    by_cases hr : st.ready = false
    · simp [plugins_add, hr]
    · by_cases hm : p.serial ∈ st.pluginsList
      · simp [plugins_add, hr, hm]
      · by_cases hc : p.name ∈ st.cogNames
        · simp [plugins_add, hr, hm, hc]
        · simp [plugins_add, hr, hm, hc, downloadStep_force_nofetch st p]
  refine ⟨?_, h2 l, ?_⟩
  · intro hrt hm
    have hr : ¬st.ready = false := by rw [hrt]; simp
    simp [plugins_add, hr, hm]
  · intro hmem
    cases f with
    | true => exact Or.inr rfl
    | false =>
      rw [h2 l] at hmem
      exact Or.inl hmem

/-- Claim C1 witness: a duplicate add on a concrete ready state is a
conflict leaving the state untouched. -/
theorem C1_witness :
    plugins_add
        ⟨[Plugin.serial ⟨"u".toList, "r".toList, "n".toList, "b".toList⟩],
          [], [], [], [], [], true, true⟩
        ⟨"u".toList, "r".toList, "n".toList, "b".toList⟩ true true =
      (⟨[Plugin.serial ⟨"u".toList, "r".toList, "n".toList, "b".toList⟩],
          [], [], [], [], [], true, true⟩,
        AddResult.alreadyInstalled) :=
  (C1_add_conflict_and_persist_order
      ⟨[Plugin.serial ⟨"u".toList, "r".toList, "n".toList, "b".toList⟩],
        [], [], [], [], [], true, true⟩
      ⟨"u".toList, "r".toList, "n".toList, "b".toList⟩ true true).1
    (by decide) (by decide)

/-- Claim C2 counterexample: updating all plugins over the persisted list
with a load failure on the first entry aborts the loop, so the second
entry is never attempted — contradicting the claim that later identities
still get attempted after a failure is logged. -/
theorem C2_counterexample :
    (plugins_update_all
        ⟨["u/r/x@master".toList, "u/r/y@master".toList], [], [], [], [], [],
          true, true⟩
        (fun s => if s = "u/r/x@master".toList then (true, false)
          else (true, true))).1 = ["u/r/x@master".toList] ∧
      "u/r/y@master".toList ∉
        (plugins_update_all
          ⟨["u/r/x@master".toList, "u/r/y@master".toList], [], [], [], [], [],
            true, true⟩
          (fun s => if s = "u/r/x@master".toList then (true, false)
            else (true, true))).1 := by decide

/-- Claim C2 amended: the update-all loop walks the persisted list in
order; when every per-entry fetch and load succeeds, every entry is
attempted, and an entry that fails to parse is reported without stopping
the loop; but a fetch or load failure raises out of the loop (see the
counterexample), so later entries are not attempted after such a
failure. -/
theorem C2_update_all_sequential :
    (∀ (st : BotState) (orc : List Char → Bool × Bool),
        (∀ s ∈ st.pluginsList, orc s = (true, true)) →
        (plugins_update_all st orc).1 = st.pluginsList) ∧
    (∀ (st : BotState) (s : List Char) (rest : List (List Char))
        (orc : List Char → Bool × Bool),
        st.ready = true → Plugin.from_string s false = none →
        (run_update_list st (s :: rest) orc).1 =
          s :: (run_update_list st rest orc).1) :=
  ⟨fun st orc h => run_update_attempts_all st.pluginsList st orc h,
   fun st s rest orc h1 h2 => run_update_parsefail_cons st s rest orc h1 h2⟩

/-- Claim C2 witness: with all oracles succeeding on a concrete two-entry
list, both entries are attempted in order. -/
theorem C2_witness :
    (plugins_update_all
        ⟨["u/r/x@master".toList, "u/r/y@master".toList], [], [], [], [], [],
          true, true⟩
        (fun _ => (true, true))).1 =
      ["u/r/x@master".toList, "u/r/y@master".toList] :=
  C2_update_all_sequential.1
    ⟨["u/r/x@master".toList, "u/r/y@master".toList], [], [], [], [], [],
      true, true⟩
    (fun _ => (true, true)) (by decide)

/-- Claim C3 counterexample: on a concrete legacy entry the bulk load
produces the trace rewrite, gate opening, persist — the persist does not
precede the gate opening, contradicting the claimed order, even though
the legacy rewrite itself is performed and persisted. -/
theorem C3_counterexample :
    (initial_load_run ⟨["a/b/c".toList], [], [], [], [], [], true, false⟩
        (fun _ => (true, true))).2 =
        [Event.memRewrite "a/b/c".toList "a/b/c@master".toList,
          Event.gateSet, Event.persistEvt] ∧
      ¬ precedes Event.persistEvt Event.gateSet
        (initial_load_run ⟨["a/b/c".toList], [], [], [], [], [], true, false⟩
          (fun _ => (true, true))).2 ∧
      precedes Event.gateSet Event.persistEvt
        (initial_load_run ⟨["a/b/c".toList], [], [], [], [], [], true, false⟩
          (fun _ => (true, true))).2 ∧
      (initial_load_run ⟨["a/b/c".toList], [], [], [], [], [], true, false⟩
        (fun _ => (true, true))).1.pluginsList = ["a/b/c@master".toList] := by
  decide

/-- Claim C3 amended: during the bulk initial load a legacy entry without
a branch is rewritten in memory to its at-master form and the rewritten
list is what gets persisted; the readiness gate however is opened first
and the persist is awaited after it (gate opening precedes
persistence). -/
theorem C3_legacy_rewrite_then_gate (o r n : List Char) (ho : validSeg o)
    (hr : validSeg r) (hn : validSeg n) (dirs : List (List (List Char)))
    (caches : List (List Char)) (loaded : List Plugin)
    (exts : List (List Char)) (cogs : List (List Char)) (en : Bool)
    (orc : List Char → Bool × Bool) :
    (initial_load_run
        ⟨[o ++ '/' :: r ++ '/' :: n], dirs, caches, loaded, exts, cogs, en, false⟩
        orc).1.pluginsList = [Plugin.serial ⟨o, r, n, masterL⟩] ∧
      (initial_load_run
        ⟨[o ++ '/' :: r ++ '/' :: n], dirs, caches, loaded, exts, cogs, en, false⟩
        orc).1.ready = true ∧
      (initial_load_run
        ⟨[o ++ '/' :: r ++ '/' :: n], dirs, caches, loaded, exts, cogs, en, false⟩
        orc).2 =
        [Event.memRewrite (o ++ '/' :: r ++ '/' :: n)
          (Plugin.serial ⟨o, r, n, masterL⟩),
         Event.gateSet, Event.persistEvt] ∧
      precedes Event.gateSet Event.persistEvt
        (initial_load_run
          ⟨[o ++ '/' :: r ++ '/' :: n], dirs, caches, loaded, exts, cogs, en, false⟩
          orc).2 :=
  initial_load_legacy o r n ho hr hn dirs caches loaded exts cogs en orc

/-- Claim C3 witness: the amended statement evaluated on a concrete
legacy entry. -/
theorem C3_witness :
    (initial_load_run ⟨["a".toList ++ '/' :: "b".toList ++ '/' :: "c".toList],
        [], [], [], [], [], true, false⟩ (fun _ => (true, true))).1.pluginsList =
      [Plugin.serial ⟨"a".toList, "b".toList, "c".toList, masterL⟩] :=
  (C3_legacy_rewrite_then_gate "a".toList "b".toList "c".toList
    (by decide) (by decide) (by decide) [] [] [] [] [] true
    (fun _ => (true, true))).1

/-- Claim C4: an archive entry is written if and only if its path has at
least three segments and its second segment equals the plugin name, and
a selected entry is written at the path suffix after the first two
segments; on the concrete two-subtree archive only the file of the
plugin's own subtree is written. -/
theorem C4_archive_selection :
    (∀ (p : Plugin) (entries : List ZipInfo) (w : List (List Char)) (b : Bool),
        (w, b) ∈ installWrites p entries ↔
          ∃ e ∈ entries, 3 ≤ e.parts.length ∧ e.parts[1]? = some p.name ∧
            w = e.parts.drop 2 ∧ b = e.isDir) ∧
    installWrites ⟨"u".toList, "r".toList, "target".toList, masterL⟩
        [⟨["repo-branch".toList, "other".toList, "file.x".toList], false⟩,
         ⟨["repo-branch".toList, "target".toList, "target.x".toList], false⟩] =
      [(["target.x".toList], false)] := by
  constructor
  · intro p entries w b
    constructor
    · intro h
      obtain ⟨e, he, heq⟩ := List.mem_map.1 h
      obtain ⟨hee, hsel⟩ := List.mem_filter.1 he
      simp only [decide_eq_true_eq] at hsel
      rw [Prod.mk.injEq] at heq
      exact ⟨e, hee, hsel.1, hsel.2, heq.1.symm, heq.2.symm⟩
    · rintro ⟨e, he, h3, hseg, rfl, rfl⟩
      apply List.mem_map.2
      refine ⟨e, List.mem_filter.2 ⟨he, ?_⟩, rfl⟩
      simp only [decide_eq_true_eq]
      exact ⟨h3, hseg⟩
  · decide

/-- Claim C5: for well-shaped segments, the branchless reference parses
non-strictly with branch master and fails strictly, and the branched
reference parses in both modes with exactly that branch. -/
theorem C5_reference_grammar (o r n b : List Char) (ho : validSeg o)
    (hr : validSeg r) (hn : validSeg n) (hb : validSeg b) :
    Plugin.from_string (o ++ '/' :: r ++ '/' :: n) false =
        some ⟨o, r, n, masterL⟩ ∧
      Plugin.from_string (o ++ '/' :: r ++ '/' :: n) true = none ∧
      Plugin.from_string (o ++ '/' :: r ++ '/' :: n ++ '@' :: b) true =
        some ⟨o, r, n, b⟩ ∧
      Plugin.from_string (o ++ '/' :: r ++ '/' :: n ++ '@' :: b) false =
        some ⟨o, r, n, b⟩ :=
  ⟨from_string_valid_noat o r n ho hr hn,
   from_string_valid_noat_strict o r n ho hr hn,
   (from_string_valid_at o r n b ho hr hn hb).1,
   (from_string_valid_at o r n b ho hr hn hb).2⟩

/-- Claim C5 witness: the grammar facts evaluated on concrete segments. -/
theorem C5_witness :
    Plugin.from_string ("alice".toList ++ '/' :: "repo".toList ++
        '/' :: "tool".toList) false =
        some ⟨"alice".toList, "repo".toList, "tool".toList, masterL⟩ ∧
      Plugin.from_string ("alice".toList ++ '/' :: "repo".toList ++
        '/' :: "tool".toList) true = none ∧
      Plugin.from_string ("alice".toList ++ '/' :: "repo".toList ++
        '/' :: "tool".toList ++ '@' :: "dev".toList) true =
        some ⟨"alice".toList, "repo".toList, "tool".toList, "dev".toList⟩ ∧
      Plugin.from_string ("alice".toList ++ '/' :: "repo".toList ++
        '/' :: "tool".toList ++ '@' :: "dev".toList) false =
        some ⟨"alice".toList, "repo".toList, "tool".toList, "dev".toList⟩ :=
  C5_reference_grammar "alice".toList "repo".toList "tool".toList
    "dev".toList (by decide) (by decide) (by decide) (by decide)

/-- Claim C6 counterexample: the string a/b/c/d with a surplus slash is
not rejected — the non-strict parse accepts it, absorbing the surplus
into the name field. -/
theorem C6_counterexample :
    Plugin.from_string "a/b/c/d".toList false =
        some ⟨"a".toList, "b".toList, "c/d".toList, masterL⟩ ∧
      Plugin.from_string "a/b/c/d".toList false ≠ none := by decide

/-- Claim C6 amended: references with fewer than two slashes are rejected
by both parses, any reference without an at sign is rejected by the
strict parse, and the concrete empty-segment shapes that leave a field
unfillable are rejected by both parses; but a string with more than the
expected number of slash-separated segments, such as a/b/c/d, is accepted
non-strictly with the surplus absorbed into the name. -/
theorem C6_malformed_rejected :
    (∀ (s : List Char) (m : Bool), s.count '/' < 2 →
        Plugin.from_string s m = none) ∧
      (∀ s : List Char, '@' ∉ s → Plugin.from_string s true = none) ∧
      (Plugin.from_string "a//c".toList false = none ∧
        Plugin.from_string "a//c".toList true = none ∧
        Plugin.from_string "/b/c".toList false = none ∧
        Plugin.from_string "/b/c".toList true = none ∧
        Plugin.from_string "a/b/".toList false = none ∧
        Plugin.from_string "a/b/".toList true = none) :=
  ⟨fun s m h => from_string_few_slashes s m h,
   fun s h => from_string_no_at s h, by decide⟩

/-- Claim C6 witness: the amended statement evaluated on a concrete
reference with a single slash. -/
theorem C6_witness : Plugin.from_string "ab/cd".toList false = none :=
  C6_malformed_rejected.1 "ab/cd".toList false (by decide)

/-- Claim C7: the cache artifact key depends only on owner, repo and
branch; starting without the install directory and without a cache
artifact, the first non-forced fetch downloads exactly once, and a
second non-forced fetch for any plugin sharing the triple performs no
download, whatever its network oracle. -/
theorem C7_cache_shared (st : BotState) (p1 p2 : Plugin) (f2 : Bool)
    (hu : p1.user = p2.user) (hr : p1.repo = p2.repo)
    (hb : p1.branch = p2.branch) (hd : p1.absKey ∉ st.dirs)
    (hc : p1.cacheKey ∉ st.caches) :
    p1.cacheKey = p2.cacheKey ∧
      downloadStep st p1 false true =
        .ok ({ st with
               dirs := insertIfAbsent p1.absKey st.dirs,
               caches := insertIfAbsent p1.cacheKey st.caches }, 1) ∧
      ∃ st2, downloadStep
        { st with
          dirs := insertIfAbsent p1.absKey st.dirs,
          caches := insertIfAbsent p1.cacheKey st.caches } p2 false f2 =
        .ok (st2, 0) := by
  have hkey : p1.cacheKey = p2.cacheKey := by
    unfold Plugin.cacheKey
    rw [hu, hr, hb]
  refine ⟨hkey, ?_, ?_⟩
  · unfold downloadStep
    rw [if_neg (by intro h; exact hd h.1)]
    dsimp only
    rw [if_neg (by intro h; exact hc h.1), if_pos rfl]
  · by_cases h2d : p2.absKey ∈ insertIfAbsent p1.absKey st.dirs
    · refine ⟨{ st with
        dirs := insertIfAbsent p1.absKey st.dirs,
        caches := insertIfAbsent p1.cacheKey st.caches }, ?_⟩
      unfold downloadStep
      rw [if_pos ⟨h2d, rfl⟩]
    · refine ⟨{ st with
        dirs := insertIfAbsent p2.absKey (insertIfAbsent p1.absKey st.dirs),
        caches := insertIfAbsent p1.cacheKey st.caches }, ?_⟩
      unfold downloadStep
      rw [if_neg (fun h => h2d h.1)]
      dsimp only
      have hmem2 : p2.cacheKey ∈ insertIfAbsent p1.cacheKey st.caches := by
        rw [← hkey]
        exact mem_insertIfAbsent_self _ _
      rw [if_pos ⟨hmem2, rfl⟩]

/-- Claim C7 witness: two concrete plugins sharing owner, repo and
branch, fetched one after the other from an empty state, download exactly
once. -/
theorem C7_witness :
    (⟨"u".toList, "r".toList, "x".toList, "main".toList⟩ : Plugin).cacheKey =
        (⟨"u".toList, "r".toList, "y".toList, "main".toList⟩ : Plugin).cacheKey ∧
      downloadStep ⟨[], [], [], [], [], [], true, true⟩
          ⟨"u".toList, "r".toList, "x".toList, "main".toList⟩ false true =
        .ok ({ (⟨[], [], [], [], [], [], true, true⟩ : BotState) with
               dirs := insertIfAbsent
                 (Plugin.absKey
                   ⟨"u".toList, "r".toList, "x".toList, "main".toList⟩) [],
               caches := insertIfAbsent
                 (Plugin.cacheKey
                   ⟨"u".toList, "r".toList, "x".toList, "main".toList⟩) [] },
          1) ∧
      ∃ st2, downloadStep
        { (⟨[], [], [], [], [], [], true, true⟩ : BotState) with
          dirs := insertIfAbsent
            (Plugin.absKey
              ⟨"u".toList, "r".toList, "x".toList, "main".toList⟩) [],
          caches := insertIfAbsent
            (Plugin.cacheKey
              ⟨"u".toList, "r".toList, "x".toList, "main".toList⟩) [] }
        ⟨"u".toList, "r".toList, "y".toList, "main".toList⟩ false false =
        .ok (st2, 0) :=
  C7_cache_shared ⟨[], [], [], [], [], [], true, true⟩
    ⟨"u".toList, "r".toList, "x".toList, "main".toList⟩
    ⟨"u".toList, "r".toList, "y".toList, "main".toList⟩ false
    rfl rfl rfl (by decide) (by decide)

/-- Claim C8 counterexample, two reachable violations.  First: two
distinct identities whose name-branch pairs collide share one install
directory; loading both and removing one deletes the shared directory
while the other identity stays in the loaded set.  Second: even for a
fully well-shaped identity, an update whose reload fails deactivates the
extension while the plugin stays in loaded_plugins, and the following
remove catches ExtensionNotLoaded, skips the loaded_plugins discard and
still deletes the install directory — the identity stays loaded with its
directory gone. -/
theorem C8_counterexample :
    ((⟨"u".toList, "r".toList, "a-b".toList, "c".toList⟩ : Plugin) ∈
        ([Op.initialLoad (fun _ => (true, true)),
          Op.add ⟨"u".toList, "r".toList, "a-b".toList, "c".toList⟩ true true,
          Op.add ⟨"u".toList, "r".toList, "a".toList, "b-c".toList⟩ true true,
          Op.remove ⟨"u".toList, "r".toList, "a".toList, "b-c".toList⟩].foldl
          opStep ⟨[], [], [], [], [], [], true, false⟩).loaded ∧
      (⟨"u".toList, "r".toList, "a-b".toList, "c".toList⟩ : Plugin).absKey ∉
        ([Op.initialLoad (fun _ => (true, true)),
          Op.add ⟨"u".toList, "r".toList, "a-b".toList, "c".toList⟩ true true,
          Op.add ⟨"u".toList, "r".toList, "a".toList, "b-c".toList⟩ true true,
          Op.remove ⟨"u".toList, "r".toList, "a".toList, "b-c".toList⟩].foldl
          opStep ⟨[], [], [], [], [], [], true, false⟩).dirs) ∧
    ((⟨"u".toList, "r".toList, "n".toList, "main".toList⟩ : Plugin) ∈
        ([Op.initialLoad (fun _ => (true, true)),
          Op.add ⟨"u".toList, "r".toList, "n".toList, "main".toList⟩ true true,
          Op.update ⟨"u".toList, "r".toList, "n".toList, "main".toList⟩ true
            false,
          Op.remove ⟨"u".toList, "r".toList, "n".toList, "main".toList⟩].foldl
          opStep ⟨[], [], [], [], [], [], true, false⟩).loaded ∧
      (⟨"u".toList, "r".toList, "n".toList, "main".toList⟩ : Plugin).absKey ∉
        ([Op.initialLoad (fun _ => (true, true)),
          Op.add ⟨"u".toList, "r".toList, "n".toList, "main".toList⟩ true true,
          Op.update ⟨"u".toList, "r".toList, "n".toList, "main".toList⟩ true
            false,
          Op.remove ⟨"u".toList, "r".toList, "n".toList, "main".toList⟩].foldl
          opStep ⟨[], [], [], [], [], [], true, false⟩).dirs) := by decide

/-- Claim C8 amended: for operation sequences over fully well-shaped
identities (separator-free segments, hyphen-free name, dot-free owner and
repo — making install-directory keys and extension identifiers injective)
in which every update succeeds in reloading, the invariant holds in every
reachable state: every identity of the loaded set has an existing install
directory.  The counterexample shows both restrictions are necessary:
colliding name-branch pairs share a directory, and a failed update reload
followed by a remove orphans a loaded identity. -/
theorem C8_loaded_subset_dirs (st : BotState) (ops : List Op)
    (hst : StInv st) (hops : ∀ op ∈ ops, opOk op) :
    ∀ p ∈ (ops.foldl opStep st).loaded,
      p.absKey ∈ (ops.foldl opStep st).dirs :=
  fun p hp => ((StInv_steps ops st hst hops).2.1 p hp).2.1

/-- Claim C8 witness: after a concrete add on an initially empty state,
the loaded identity's install directory exists. -/
theorem C8_witness :
    (⟨"u".toList, "r".toList, "n".toList, "main".toList⟩ : Plugin).absKey ∈
      ([Op.initialLoad (fun _ => (true, true)),
        Op.add ⟨"u".toList, "r".toList, "n".toList, "main".toList⟩ true
          true].foldl opStep ⟨[], [], [], [], [], [], true, false⟩).dirs :=
  C8_loaded_subset_dirs ⟨[], [], [], [], [], [], true, false⟩
    [Op.initialLoad (fun _ => (true, true)),
      Op.add ⟨"u".toList, "r".toList, "n".toList, "main".toList⟩ true true]
    (by decide) (by decide)
    ⟨"u".toList, "r".toList, "n".toList, "main".toList⟩ (by decide)

/-- Claim C9 counterexample: two identities with the same plain name that
differ in owner and repo but contain dots produce the same extension
identifier, so the derived identifier is not injective as claimed. -/
theorem C9_counterexample :
    Plugin.ext_string ⟨"a.b".toList, "c".toList, "n".toList, "x".toList⟩ =
        Plugin.ext_string ⟨"a".toList, "b.c".toList, "n".toList, "x".toList⟩ ∧
      (⟨"a.b".toList, "c".toList, "n".toList, "x".toList⟩ : Plugin).name =
        (⟨"a".toList, "b.c".toList, "n".toList, "x".toList⟩ : Plugin).name ∧
      (⟨"a.b".toList, "c".toList, "n".toList, "x".toList⟩ : Plugin).user ≠
        (⟨"a".toList, "b.c".toList, "n".toList, "x".toList⟩ : Plugin).user ∧
      (⟨"a.b".toList, "c".toList, "n".toList, "x".toList⟩ : Plugin) ≠
        ⟨"a".toList, "b.c".toList, "n".toList, "x".toList⟩ := by decide

/-- Claim C9 amended: when owner and repo contain no dot, two distinct
identities sharing one plain name always get distinct extension
identifiers; the counterexample shows the restriction is necessary. -/
theorem C9_ext_identifier_injective (p q : Plugin) (hpu : '.' ∉ p.user)
    (hqu : '.' ∉ q.user) (hpr : '.' ∉ p.repo) (hqr : '.' ∉ q.repo)
    (hname : p.name = q.name) (hne : p ≠ q) :
    p.ext_string ≠ q.ext_string :=
  fun h => hne (ext_string_inj_nodot p q hpu hqu hpr hqr hname h)

/-- Claim C9 witness: two concrete dot-free identities differing only in
branch get distinct extension identifiers. -/
theorem C9_witness :
    Plugin.ext_string ⟨"a".toList, "b".toList, "n".toList, "x".toList⟩ ≠
      Plugin.ext_string ⟨"a".toList, "b".toList, "n".toList, "y".toList⟩ :=
  C9_ext_identifier_injective
    ⟨"a".toList, "b".toList, "n".toList, "x".toList⟩
    ⟨"a".toList, "b".toList, "n".toList, "y".toList⟩
    (by decide) (by decide) (by decide) (by decide) rfl (by decide)

/-- Claim C10: with the feature flag off at startup the readiness gate is
never opened — the bulk load is never scheduled and no other operation
sets it — so every add, remove and update command takes the still-loading
branch, and no sequence of operations changes the persisted list, the
directory tree, the cache, the loaded set, or any other part of the
state. -/
theorem C10_disabled_frozen (st : BotState) (ops : List Op)
    (he : st.enablePlugins = false) (hr : st.ready = false) :
    ops.foldl opStep st = st ∧
      (∀ p f l, plugins_add st p f l = (st, AddResult.stillLoading)) ∧
      (∀ p, plugins_remove st p = (st, RemoveResult.stillLoading)) ∧
      (∀ p f l, update_plugin_p st p f l =
        .ok (st, UpdateResult.stillLoading)) ∧
      (ops.foldl opStep st).ready = false :=
  ⟨steps_frozen ops st he hr,
   fun p f l => plugins_add_not_ready st p f l hr,
   fun p => plugins_remove_not_ready st p hr,
   fun p f l => update_plugin_p_not_ready st p f l hr,
   by rw [steps_frozen ops st he hr]; exact hr⟩

/-- Claim C10 witness: a concrete disabled state is left untouched by a
concrete operation sequence. -/
theorem C10_witness :
    [Op.initialLoad (fun _ => (true, true)),
      Op.add ⟨"u".toList, "r".toList, "n".toList, "main".toList⟩ true true,
      Op.remove ⟨"u".toList, "r".toList, "n".toList, "main".toList⟩,
      Op.update ⟨"u".toList, "r".toList, "n".toList, "main".toList⟩ true
        true].foldl opStep
      ⟨["u/r/n@main".toList], [], [], [], [], [], false, false⟩ =
      ⟨["u/r/n@main".toList], [], [], [], [], [], false, false⟩ :=
  (C10_disabled_frozen ⟨["u/r/n@main".toList], [], [], [], [], [], false, false⟩
    [Op.initialLoad (fun _ => (true, true)),
      Op.add ⟨"u".toList, "r".toList, "n".toList, "main".toList⟩ true true,
      Op.remove ⟨"u".toList, "r".toList, "n".toList, "main".toList⟩,
      Op.update ⟨"u".toList, "r".toList, "n".toList, "main".toList⟩ true true]
    rfl rfl).1
